import Mathlib

/-!
# Verification of the echo-jnn repository against its specification

This file gives a shallow embedding of the parts of the repository that the
specification talks about, and proves (or refutes) the specified properties.

Embedded components:
* `src/verification/roundtrip_verifier.py` — the `CognitiveStateTokenizer`
  quantizer and discrete encoders (floats are modelled as exact rationals,
  Python `int()` truncation of a nonnegative value as `Int.floor`).
* `src/chimera/bridge/ontogenetic_atomspace_bridge.py` — `A000081Generator`.
* `src/chimera/atomspace/atomspace.py` — `TruthValue`, `AttentionValue`,
  `Atom`/`Node`/`Link` and the `AtomSpace` container with its three indexes
  (Python dicts are modelled as association lists with first-match lookup;
  atoms are identified by their UUID string, matching `Atom.__eq__`).
* `src/chimera/kernel/cogkernel.py` — `PLNSyscall.sys_infer` and the `CogFS`
  virtual filesystem.
-/

namespace EchoJnn

/-! ## Tokenizer quantizer (roundtrip_verifier.py)

Constants from the source: `QUANTIZATION_LEVELS = 256`, `VALUE_RANGE = (-1.0, 1.0)`,
`VOCAB_SIZE = 32000`, offsets 1000/2000/3000 for perception/action/simulation and
100/300 for stream ids and step numbers. -/

def QUANTIZATION_LEVELS : ℤ := 256

def VALUE_RANGE_LO : ℚ := -1

def VALUE_RANGE_HI : ℚ := 1

def VOCAB_SIZE : ℤ := 32000

def perception_offset : ℤ := 1000

def action_offset : ℤ := 2000

def simulation_offset : ℤ := 3000

def stream_offset : ℤ := 100

def step_offset : ℤ := 300

/-- Model of `CognitiveStateTokenizer._quantize`: clamp to `[-1, 1]`, normalize to
`[0, 1]`, scale by `levels - 1 = 255` and truncate with Python `int()`.
The truncated quantity is nonnegative, so truncation is `Int.floor`. -/
def quantize (value : ℚ) : ℤ :=
  let clamped := max VALUE_RANGE_LO (min VALUE_RANGE_HI value)
  let normalized := (clamped - VALUE_RANGE_LO) / (VALUE_RANGE_HI - VALUE_RANGE_LO)
  ⌊normalized * ((QUANTIZATION_LEVELS : ℚ) - 1)⌋

/-- Model of `CognitiveStateTokenizer._dequantize`: rescale the token back into the
value range. -/
def dequantize (token : ℤ) : ℚ :=
  let normalized := (token : ℚ) / ((QUANTIZATION_LEVELS : ℚ) - 1)
  normalized * (VALUE_RANGE_HI - VALUE_RANGE_LO) + VALUE_RANGE_LO

/-- Model of `RoundtripVerifier.max_quantization_error = (hi - lo) / (levels - 1)`. -/
def max_quantization_error : ℚ :=
  (VALUE_RANGE_HI - VALUE_RANGE_LO) / ((QUANTIZATION_LEVELS : ℚ) - 1)

/-- Model of `CognitiveStateTokenizer.encode_perception` (body of the list comprehension;
the `assert len(state) == 4` is carried as a hypothesis where needed). -/
def encode_perception (state : List ℚ) : List ℤ :=
  state.map (fun v => perception_offset + quantize v)

/-- Model of `CognitiveStateTokenizer.encode_action`. -/
def encode_action (state : List ℚ) : List ℤ :=
  state.map (fun v => action_offset + quantize v)

/-- Model of `CognitiveStateTokenizer.encode_simulation`. -/
def encode_simulation (state : List ℚ) : List ℤ :=
  state.map (fun v => simulation_offset + quantize v)

/-- Model of `CognitiveStateTokenizer.encode_stream_id`: `[stream_offset + stream_id - 1]`. -/
def encode_stream_id (stream_id : ℤ) : List ℤ :=
  [stream_offset + stream_id - 1]

/-- Model of `CognitiveStateTokenizer.decode_stream_id`: `tokens[0] - stream_offset + 1`
(the source asserts the token list has length one; other shapes are unreachable
there and mapped to `0`). -/
def decode_stream_id (tokens : List ℤ) : ℤ :=
  match tokens with
  | [t] => t - stream_offset + 1
  | _ => 0

/-- Model of `CognitiveStateTokenizer.encode_step_number`: `[step_offset + step - 1]`. -/
def encode_step_number (step : ℤ) : List ℤ :=
  [step_offset + step - 1]

/-- Model of `CognitiveStateTokenizer.decode_step_number`: `tokens[0] - step_offset + 1`. -/
def decode_step_number (tokens : List ℤ) : ℤ :=
  match tokens with
  | [t] => t - step_offset + 1
  | _ => 0

end EchoJnn

namespace EchoJnn

/-! ## A000081 generator (ontogenetic_atomspace_bridge.py)

`A000081Generator` keeps a cache `{0: 0, 1: 1}` and fills indices `2..max_order`
with `a(i) = (sum_{k=1}^{i-1} sum_{d|k} d*a(d)*a(i-k)) // (i-1)`.
The cache is modelled as a list whose index is the key. -/

/-- Model of `A000081Generator._divisors`: the sorted divisors of `n` (the source
collects them with a square-root loop and sorts; the result is the ascending
list of divisors, produced here directly). -/
def a81_divisors (n : Nat) : List Nat :=
  ((List.range n).map (· + 1)).filter (fun d => n % d = 0)

/-- One step of `A000081Generator._precompute`: given the cache for keys
`0..i-1` (as a list of length `i`), compute the entry for key `i`. -/
def a81_next (cache : List Nat) : Nat :=
  let i := cache.length
  let total :=
    ((List.range (i - 1)).map (fun k0 =>
      let k := k0 + 1
      ((a81_divisors k).map (fun d => d * cache.getD d 0 * cache.getD (i - k) 0)).sum)).sum
  total / (i - 1)

/-- The generator cache after `_precompute(max_order)`: keys `0..max_order`
(the constructor seeds `{0: 0, 1: 1}` and the loop fills `2..max_order`). -/
def a81_cache : Nat → List Nat
  | 0 => [0, 1]
  | 1 => [0, 1]
  | n + 1 => let c := a81_cache n; c ++ [a81_next c]

/-- Model of `A000081Generator.__getitem__` for `n` within the precomputed range:
`self._cache.get(n, 0)`. -/
def a81_get (maxOrder n : Nat) : Nat :=
  (a81_cache maxOrder).getD n 0

/-- The hard-coded A000081 table in `roundtrip_verifier.py` (terms for
1..20 nodes). -/
def A000081_table : List Nat :=
  [1, 1, 2, 4, 9, 20, 48, 115, 286, 719,
   1842, 4766, 12486, 32973, 87811, 235381,
   634847, 1721159, 4688676, 12826228]

/-! ## Helper lemmas for the quantizer -/

theorem quantize_nonneg (x : ℚ) : 0 ≤ quantize x := by
  unfold quantize
  have hv1 : VALUE_RANGE_LO ≤ max VALUE_RANGE_LO (min VALUE_RANGE_HI x) := le_max_left _ _
  rw [Int.le_floor]
  push_cast
  rw [VALUE_RANGE_LO, VALUE_RANGE_HI, QUANTIZATION_LEVELS] at *
  nlinarith

theorem quantize_le (x : ℚ) : quantize x ≤ 255 := by
  unfold quantize
  have hv2 : max VALUE_RANGE_LO (min VALUE_RANGE_HI x) ≤ VALUE_RANGE_HI := by
    apply max_le
    · rw [VALUE_RANGE_LO, VALUE_RANGE_HI]; norm_num
    · exact min_le_left _ _
  have h255 : (255 : ℤ) = ⌊(255 : ℚ)⌋ := by norm_num
  rw [h255]
  apply Int.floor_le_floor
  rw [VALUE_RANGE_LO, VALUE_RANGE_HI, QUANTIZATION_LEVELS] at *
  nlinarith

end EchoJnn

namespace EchoJnn

/-! ## Claim theorems for the tokenizer and the A000081 generator -/

/-- C1: for every real `x` with `-1 ≤ x ≤ 1`, the quantizer round-trip
satisfies `|dequantize (quantize x) - x| ≤ ε` where
`ε = (1 - (-1)) / (256 - 1) = 2/255`. -/
theorem quantize_roundtrip_within_eps :
    max_quantization_error = 2 / 255 ∧
    ∀ x : ℚ, -1 ≤ x → x ≤ 1 →
      |dequantize (quantize x) - x| ≤ max_quantization_error := by
  constructor
  · rw [max_quantization_error, VALUE_RANGE_HI, VALUE_RANGE_LO, QUANTIZATION_LEVELS]
    norm_num
  · intro x hlo hhi
    have hclamp : max VALUE_RANGE_LO (min VALUE_RANGE_HI x) = x := by
      rw [VALUE_RANGE_LO, VALUE_RANGE_HI]
      rw [min_eq_right hhi]
      exact max_eq_right hlo
    unfold quantize dequantize max_quantization_error
    rw [hclamp, VALUE_RANGE_LO, VALUE_RANGE_HI, QUANTIZATION_LEVELS]
    have h1 : ((⌊(x - (-1)) / (1 - (-1)) * ((256 : ℚ) - 1)⌋ : ℤ) : ℚ) ≤
        (x - (-1)) / (1 - (-1)) * ((256 : ℚ) - 1) := Int.floor_le _
    have h2 : (x - (-1)) / (1 - (-1)) * ((256 : ℚ) - 1) - 1 <
        ((⌊(x - (-1)) / (1 - (-1)) * ((256 : ℚ) - 1)⌋ : ℤ) : ℚ) := Int.sub_one_lt_floor _
    rw [abs_le]
    constructor <;> nlinarith

/-- C1 witness: instantiated at `x = 1/3`. -/
theorem quantize_roundtrip_within_eps_witness :
    |dequantize (quantize (1/3)) - 1/3| ≤ max_quantization_error :=
  quantize_roundtrip_within_eps.2 (1/3) (by norm_num) (by norm_num)

/-- C3: for every `n` with `1 ≤ n ≤ 20` (the default `max_order`),
`A000081Generator[n]` equals the `n`-th term of the hard-coded A000081 table
in the verification script. -/
theorem a81_generator_matches_table :
    ∀ n : Nat, 1 ≤ n → n ≤ 20 → a81_get 20 n = A000081_table.getD (n - 1) 0 := by
  have h : ∀ n < 21, 1 ≤ n → a81_get 20 n = A000081_table.getD (n - 1) 0 := by decide
  intro n h1 h2
  exact h n (by omega) h1

/-- C3 witness: instantiated at `n = 9` (286 unlabeled rooted trees). -/
theorem a81_generator_matches_table_witness :
    a81_get 20 9 = A000081_table.getD 8 0 :=
  a81_generator_matches_table 9 (by norm_num) (by norm_num)

/-- C9: the discrete encodings round-trip exactly: stream ids in `{1, 2, 3}`
and step numbers in `{1, ..., 12}` survive encode-then-decode unchanged. -/
theorem discrete_roundtrip_exact :
    (∀ sid : ℤ, 1 ≤ sid → sid ≤ 3 →
      decode_stream_id (encode_stream_id sid) = sid) ∧
    (∀ step : ℤ, 1 ≤ step → step ≤ 12 →
      decode_step_number (encode_step_number step) = step) := by
  constructor
  · intro sid _ _
    simp only [encode_stream_id, decode_stream_id]
    ring
  · intro step _ _
    simp only [encode_step_number, decode_step_number]
    ring

/-- C9 witness: instantiated at stream id 2 and step 7. -/
theorem discrete_roundtrip_exact_witness :
    decode_stream_id (encode_stream_id 2) = 2 ∧
    decode_step_number (encode_step_number 7) = 7 :=
  ⟨discrete_roundtrip_exact.1 2 (by norm_num) (by norm_num),
   discrete_roundtrip_exact.2 7 (by norm_num) (by norm_num)⟩

/-- C10: `_quantize` lands in `[0, 255]` for every input (clamping handles
inputs outside `[-1, 1]`), hence every token of `encode_perception`,
`encode_action` and `encode_simulation` lies in `[offset, offset + 255]` for
its offset and is strictly below `VOCAB_SIZE = 32000`. -/
theorem encode_tokens_in_range :
    (∀ x : ℚ, 0 ≤ quantize x ∧ quantize x ≤ 255) ∧
    (∀ state : List ℚ, state.length = 4 → ∀ t ∈ encode_perception state,
      perception_offset ≤ t ∧ t ≤ perception_offset + 255 ∧ t < VOCAB_SIZE) ∧
    (∀ state : List ℚ, state.length = 4 → ∀ t ∈ encode_action state,
      action_offset ≤ t ∧ t ≤ action_offset + 255 ∧ t < VOCAB_SIZE) ∧
    (∀ state : List ℚ, state.length = 9 → ∀ t ∈ encode_simulation state,
      simulation_offset ≤ t ∧ t ≤ simulation_offset + 255 ∧ t < VOCAB_SIZE) := by
  refine ⟨fun x => ⟨quantize_nonneg x, quantize_le x⟩, ?_, ?_, ?_⟩ <;>
  · intro state _ t ht
    simp only [encode_perception, encode_action, encode_simulation,
      List.mem_map] at ht
    obtain ⟨v, _, rfl⟩ := ht
    have h1 := quantize_nonneg v
    have h2 := quantize_le v
    simp only [perception_offset, action_offset, simulation_offset, VOCAB_SIZE] at *
    omega

/-- C10 witness: instantiated at out-of-range inputs `5` and `-7`. -/
theorem encode_tokens_in_range_witness :
    (0 ≤ quantize 5 ∧ quantize 5 ≤ 255) ∧
    (perception_offset ≤ (perception_offset + quantize (-7)) ∧
      (perception_offset + quantize (-7)) ≤ perception_offset + 255 ∧
      (perception_offset + quantize (-7)) < VOCAB_SIZE) :=
  ⟨encode_tokens_in_range.1 5,
   encode_tokens_in_range.2.1 [-7, 0, 0, 0] rfl (perception_offset + quantize (-7))
     (by simp [encode_perception])⟩

end EchoJnn

namespace EchoJnn

/-! ## Association-list dictionaries

Python `dict`s are modelled as association lists with first-match lookup.
`dSet` overwrites the value in place when the key is present and appends
otherwise; `dDel` drops the entry; both mirror `d[k] = v` and `del d[k]`. -/

variable {κ ν : Type} [DecidableEq κ]

def dGet : List (κ × ν) → κ → Option ν
  | [], _ => none
  | (k0, v0) :: t, k => if k0 = k then some v0 else dGet t k

def dSet : List (κ × ν) → κ → ν → List (κ × ν)
  | [], k, v => [(k, v)]
  | (k0, v0) :: t, k, v => if k0 = k then (k0, v) :: t else (k0, v0) :: dSet t k v

def dDel : List (κ × ν) → κ → List (κ × ν)
  | [], _ => []
  | (k0, v0) :: t, k => if k0 = k then t else (k0, v0) :: dDel t k

theorem dGet_dSet (l : List (κ × ν)) (k : κ) (v : ν) (k' : κ) :
    dGet (dSet l k v) k' = if k = k' then some v else dGet l k' := by
  induction l with
  | nil => simp [dSet, dGet]
  | cons h t ih =>
    obtain ⟨k0, v0⟩ := h
    by_cases h0 : k0 = k
    · subst h0
      by_cases h1 : k0 = k' <;> simp [dSet, dGet, h1]
    · by_cases h1 : k0 = k'
      · subst h1
        have hk : ¬k = k0 := fun hh => h0 hh.symm
        simp [dSet, dGet, h0, hk]
      · simp [dSet, dGet, h0, h1, ih]

theorem dGet_eq_none_iff (l : List (κ × ν)) (k : κ) :
    dGet l k = none ↔ k ∉ l.map Prod.fst := by
  induction l with
  | nil => simp [dGet]
  | cons h t ih =>
    obtain ⟨k0, v0⟩ := h
    by_cases h0 : k0 = k
    · subst h0; simp [dGet]
    · have hk : ¬k = k0 := fun hh => h0 hh.symm
      simp [dGet, h0, ih, hk]

theorem dDel_sublist (l : List (κ × ν)) (k : κ) : (dDel l k).Sublist l := by
  induction l with
  | nil => simp [dDel]
  | cons h t ih =>
    obtain ⟨k0, v0⟩ := h
    by_cases h0 : k0 = k
    · simp only [dDel, if_pos h0]
      exact List.sublist_cons_self _ _
    · simp only [dDel, if_neg h0]
      exact ih.cons₂ _

theorem dGet_dDel (l : List (κ × ν)) (k : κ) (k' : κ)
    (hnd : (l.map Prod.fst).Nodup) :
    dGet (dDel l k) k' = if k = k' then none else dGet l k' := by
  induction l with
  | nil => simp [dDel, dGet]
  | cons h t ih =>
    obtain ⟨k0, v0⟩ := h
    simp only [List.map_cons, List.nodup_cons] at hnd
    by_cases h0 : k0 = k
    · subst h0
      by_cases h1 : k0 = k'
      · subst h1
        have : dGet t k0 = none := (dGet_eq_none_iff t k0).mpr hnd.1
        simp [dDel, this]
      · simp [dDel, dGet, h1]
    · by_cases h1 : k0 = k'
      · subst h1
        have hk : ¬k = k0 := fun hh => h0 hh.symm
        simp [dDel, dGet, h0, hk]
      · simp [dDel, dGet, h0, h1, ih hnd.2]

theorem dSet_keys_of_mem (l : List (κ × ν)) (k : κ) (v : ν)
    (h : dGet l k ≠ none) :
    (dSet l k v).map Prod.fst = l.map Prod.fst := by
  induction l with
  | nil => simp [dGet] at h
  | cons hd t ih =>
    obtain ⟨k0, v0⟩ := hd
    by_cases h0 : k0 = k
    · simp [dSet, if_pos h0]
    · simp only [dGet, if_neg h0] at h
      simp [dSet, if_neg h0, ih h]

theorem dSet_keys_of_not_mem (l : List (κ × ν)) (k : κ) (v : ν)
    (h : dGet l k = none) :
    (dSet l k v).map Prod.fst = l.map Prod.fst ++ [k] := by
  induction l with
  | nil => simp [dSet]
  | cons hd t ih =>
    obtain ⟨k0, v0⟩ := hd
    by_cases h0 : k0 = k
    · simp [dGet, if_pos h0] at h
    · simp only [dGet, if_neg h0] at h
      simp [dSet, if_neg h0, ih h]

theorem dSet_self (l : List (κ × ν)) (k : κ) (v : ν)
    (h : dGet l k = some v) : dSet l k v = l := by
  induction l with
  | nil => simp [dGet] at h
  | cons hd t ih =>
    obtain ⟨k0, v0⟩ := hd
    by_cases h0 : k0 = k
    · subst h0
      simp [dGet] at h
      simp [dSet, h]
    · simp only [dGet, if_neg h0] at h
      simp [dSet, if_neg h0, ih h]

theorem dSet_length (l : List (κ × ν)) (k : κ) (v : ν)
    (h : dGet l k ≠ none) : (dSet l k v).length = l.length := by
  have := dSet_keys_of_mem l k v h
  have h1 : ((dSet l k v).map Prod.fst).length = (l.map Prod.fst).length := by rw [this]
  simpa using h1

/-- Occurrence count of an element in a list (Python lists store object
references; equality is `Atom.__eq__`, i.e. UUID equality). -/
def occCount : List κ → κ → Nat
  | [], _ => 0
  | x :: t, u => (if x = u then 1 else 0) + occCount t u

/-- Model of `list.remove(x)`: drop the first occurrence (absence raises `ValueError`
in Python; that situation is unreachable in the verified traces and is
modelled as a no-op). -/
def removeFirst (l : List κ) (u : κ) : List κ :=
  match l with
  | [] => []
  | x :: t => if x = u then t else x :: removeFirst t u

theorem occCount_append (l₁ l₂ : List κ) (u : κ) :
    occCount (l₁ ++ l₂) u = occCount l₁ u + occCount l₂ u := by
  induction l₁ with
  | nil => simp [occCount]
  | cons x t ih => simp [occCount, ih]; omega

theorem occCount_eq_zero_iff (l : List κ) (u : κ) :
    occCount l u = 0 ↔ u ∉ l := by
  induction l with
  | nil => simp [occCount]
  | cons x t ih =>
    by_cases h : x = u
    · subst h
      simp [occCount]
    · have hk : ¬u = x := fun hh => h hh.symm
      simp [occCount, h, ih, hk]

theorem occCount_removeFirst_self (l : List κ) (u : κ) :
    occCount (removeFirst l u) u = occCount l u - 1 := by
  induction l with
  | nil => simp [removeFirst, occCount]
  | cons x t ih =>
    by_cases h : x = u
    · subst h
      simp [removeFirst, occCount]
    · simp [removeFirst, occCount, h, ih]

theorem occCount_removeFirst_ne (l : List κ) (u u' : κ) (h : u' ≠ u) :
    occCount (removeFirst l u) u' = occCount l u' := by
  induction l with
  | nil => simp [removeFirst]
  | cons x t ih =>
    by_cases h0 : x = u
    · subst h0
      have hk : ¬x = u' := fun hh => h hh.symm
      simp [removeFirst, occCount, hk]
    · simp [removeFirst, occCount, h0, ih]

theorem mem_removeFirst (l : List κ) (u u' : κ)
    (h : u' ∈ removeFirst l u) : u' ∈ l := by
  induction l with
  | nil => simp [removeFirst] at h
  | cons x t ih =>
    by_cases h0 : x = u
    · subst h0
      simp only [removeFirst, if_pos rfl] at h
      exact List.mem_cons_of_mem _ h
    · simp only [removeFirst, if_neg h0, List.mem_cons] at h
      rcases h with h | h
      · exact h ▸ List.mem_cons_self _ _
      · exact List.mem_cons_of_mem _ (ih h)

end EchoJnn

namespace EchoJnn

/-! ## AtomSpace data model (atomspace.py)

Float fields are modelled as exact rationals. Atoms are identified by their
UUID string (`Atom.__eq__` and `__hash__` compare UUIDs); the payload of each
atom lives in the by-UUID index, and the by-type and by-name indexes hold UUID
references, which mirrors Python's object references. The `_incoming`
back-reference list of an atom is not tracked (no specified property
mentions it). -/

inductive TVType
  | SIMPLE
  | COUNT
  | INDEFINITE
  | FUZZY
deriving DecidableEq, Repr

/-- Model of `TruthValue`: strength, confidence, observation count and type. -/
structure TruthValue where
  strength : ℚ
  confidence : ℚ
  tvCount : ℤ
  tvType : TVType
deriving DecidableEq, Repr

/-- Model of `TruthValue.simple(strength, confidence)`. -/
def TruthValue.simple (s c : ℚ) : TruthValue :=
  ⟨s, c, 1, .SIMPLE⟩

/-- Model of `TruthValue.indefinite()`. -/
def TruthValue.indefinite : TruthValue :=
  ⟨1/2, 0, 1, .INDEFINITE⟩

/-- Model of `TruthValue.merge`: revision rule. -/
def TruthValue.merge (self other : TruthValue) : TruthValue :=
  if self.tvType = .INDEFINITE then other
  else if other.tvType = .INDEFINITE then self
  else
    let total := self.confidence + other.confidence
    if total = 0 then .indefinite
    else .simple ((self.strength * self.confidence + other.strength * other.confidence) / total)
      (min 1 (total / 2))

/-- Model of `AttentionValue`: STI, LTI and the VLTI flag. -/
structure AttentionValue where
  sti : ℚ
  lti : ℚ
  vlti : Bool
deriving DecidableEq, Repr

/-- The default `AttentionValue()`. -/
def AttentionValue.default : AttentionValue :=
  ⟨0, 0, false⟩

/-- An atom is a `Node` (with a name) or a `Link` (with an outgoing list of
atom references, here UUIDs). -/
inductive AtomKind
  | node (name : String)
  | link (outgoing : List String)
deriving DecidableEq, Repr

/-- An atom: UUID, type tag, node/link payload, truth value, attention value. -/
structure Atom where
  uuid : String
  atom_type : String
  kind : AtomKind
  tv : TruthValue
  av : AttentionValue
deriving DecidableEq, Repr

def Atom.isNode (a : Atom) : Bool :=
  match a.kind with
  | .node _ => true
  | .link _ => false

/-- Model of `InheritanceLink(subtype, supertype, tv=...)`: a binary link of type
`"InheritanceLink"` with the default attention value. -/
def mkInheritanceLink (fresh : String) (sub sup : String) (tv : TruthValue) : Atom :=
  ⟨fresh, "InheritanceLink", .link [sub, sup], tv, AttentionValue.default⟩

/-- The `AtomSpace` container with its three parallel indexes
(`_atoms_by_uuid`, `_atoms_by_type`, `_atoms_by_name`). -/
structure AtomSpace where
  name : String
  atoms_by_uuid : List (String × Atom)
  atoms_by_type : List (String × List String)
  atoms_by_name : List ((String × String) × String)
deriving DecidableEq, Repr

/-- Model of `AtomSpace(name)`: empty container. -/
def AtomSpace.mkEmpty (name : String) : AtomSpace :=
  ⟨name, [], [], []⟩

/-- Callback events fired by `_notify` (the callbacks themselves are opaque
user functions; what the container does is fire the event). -/
inductive ASEvent
  | added (u : String)
  | removed (u : String)
  | cleared
deriving DecidableEq, Repr

/-- Model of `AtomSpace.get(uuid)`. -/
def AtomSpace.get (s : AtomSpace) (u : String) : Option Atom :=
  dGet s.atoms_by_uuid u

/-- Model of `AtomSpace.get_node(node_type, name)`: the by-name index holds the object
reference, resolved here through the by-UUID payload store. -/
def AtomSpace.get_node (s : AtomSpace) (t n : String) : Option Atom :=
  match dGet s.atoms_by_name (t, n) with
  | some u => dGet s.atoms_by_uuid u
  | none => none

/-- Model of `AtomSpace.size()`. -/
def AtomSpace.size (s : AtomSpace) : Nat :=
  s.atoms_by_uuid.length

/-- Append `u` to the type-index list for `t` (`_atoms_by_type.setdefault`-style
block in `AtomSpace.add`). -/
def typeAppend (d : List (String × List String)) (t : String) (u : String) :
    List (String × List String) :=
  match dGet d t with
  | some l => dSet d t (l ++ [u])
  | none => dSet d t [u]

/-- Model of `AtomSpace.add(atom)`: for a `Node` whose `(type, name)` key is present,
merge truth values into the existing atom and return it (no index change, no
callback); otherwise register the atom in all applicable indexes and fire the
`"add"` event. Returns the resulting atom, the new state and the fired
events. -/
def AtomSpace.add (s : AtomSpace) (a : Atom) : Atom × AtomSpace × List ASEvent :=
  match a.kind with
  | .node nm =>
    match dGet s.atoms_by_name (a.atom_type, nm) with
    | some u =>
      match dGet s.atoms_by_uuid u with
      | some ex =>
        let ex' := { ex with tv := ex.tv.merge a.tv }
        (ex', { s with atoms_by_uuid := dSet s.atoms_by_uuid u ex' }, [])
      | none =>
        -- A name-index entry without a payload cannot arise in Python
        -- (the index holds the object itself); unreachable here.
        (a, s, [])
    | none =>
      (a, { s with
        atoms_by_name := dSet s.atoms_by_name (a.atom_type, nm) a.uuid,
        atoms_by_uuid := dSet s.atoms_by_uuid a.uuid a,
        atoms_by_type := typeAppend s.atoms_by_type a.atom_type a.uuid },
        [.added a.uuid])
  | .link _ =>
    (a, { s with
      atoms_by_uuid := dSet s.atoms_by_uuid a.uuid a,
      atoms_by_type := typeAppend s.atoms_by_type a.atom_type a.uuid },
      [.added a.uuid])

/-- Model of `AtomSpace.remove(atom)`: drop the atom from the by-UUID index, remove the
first matching reference from its type list, and for a `Node` delete its
`(type, name)` key when present. -/
def AtomSpace.remove (s : AtomSpace) (a : Atom) : Bool × AtomSpace × List ASEvent :=
  match dGet s.atoms_by_uuid a.uuid with
  | none => (false, s, [])
  | some _ =>
    let byUuid := dDel s.atoms_by_uuid a.uuid
    let byType :=
      match dGet s.atoms_by_type a.atom_type with
      | some l => dSet s.atoms_by_type a.atom_type (removeFirst l a.uuid)
      | none => s.atoms_by_type
    let byName :=
      match a.kind with
      | .node nm =>
        match dGet s.atoms_by_name (a.atom_type, nm) with
        | some _ => dDel s.atoms_by_name (a.atom_type, nm)
        | none => s.atoms_by_name
      | .link _ => s.atoms_by_name
    let s' := { s with
      atoms_by_uuid := byUuid
      atoms_by_type := byType
      atoms_by_name := byName }
    (true, s', [.removed a.uuid])

/-- Model of `AtomSpace.clear()`. -/
def AtomSpace.clear (s : AtomSpace) : AtomSpace × List ASEvent :=
  ({ s with atoms_by_uuid := [], atoms_by_type := [], atoms_by_name := [] },
   [.cleared])

end EchoJnn

namespace EchoJnn

/-! ## Index consistency (AtomSpace) -/

/-- The type-index list for a type tag (empty when the key is absent). -/
def typeList (s : AtomSpace) (t : String) : List String :=
  (dGet s.atoms_by_type t).getD []

/-- An AtomSpace operation, as issued by a caller. -/
inductive ASOp
  | addOp (a : Atom)
  | removeOp (a : Atom)
  | clearOp

/-- The state after one operation. -/
def applyOp (s : AtomSpace) (op : ASOp) : AtomSpace :=
  match op with
  | .addOp a => (s.add a).2.1
  | .removeOp a => (s.remove a).2.1
  | .clearOp => s.clear.1

/-- Operations realizable without re-adding an atom object already present:
an added atom either has a fresh UUID or is a `Node` whose `(type, name)` key
is present (the merge path); a removed atom whose UUID is present agrees with
the stored object on type and kind (in Python they are the same object). -/
def SafeOp (s : AtomSpace) (op : ASOp) : Prop :=
  match op with
  | .addOp a =>
    dGet s.atoms_by_uuid a.uuid = none ∨
      (∃ nm, a.kind = .node nm ∧ (dGet s.atoms_by_name (a.atom_type, nm)).isSome = true)
  | .removeOp a =>
    ∀ b, dGet s.atoms_by_uuid a.uuid = some b →
      b.atom_type = a.atom_type ∧ b.kind = a.kind
  | .clearOp => True

/-- States reachable from an empty AtomSpace by safe operations. -/
inductive SafeReachable : AtomSpace → Prop
  | base (name : String) : SafeReachable (AtomSpace.mkEmpty name)
  | step {s : AtomSpace} (op : ASOp) :
      SafeReachable s → SafeOp s op → SafeReachable (applyOp s op)

/-- Mutual consistency of the three indexes: every stored atom occurs exactly
once in the type list for its type, every type-list reference resolves to a
stored atom of that type, every stored `Node` is registered under its
`(type, name)` key, and every name-index entry resolves to a stored `Node`
with that key. -/
structure Consistent (s : AtomSpace) : Prop where
  uuid_nodup : (s.atoms_by_uuid.map Prod.fst).Nodup
  name_nodup : (s.atoms_by_name.map Prod.fst).Nodup
  keyed : ∀ u a, dGet s.atoms_by_uuid u = some a → a.uuid = u
  type_count : ∀ u a, dGet s.atoms_by_uuid u = some a →
    occCount (typeList s a.atom_type) u = 1
  type_sound : ∀ t l, dGet s.atoms_by_type t = some l → ∀ u ∈ l,
    ∃ a, dGet s.atoms_by_uuid u = some a ∧ a.atom_type = t
  name_complete : ∀ u a nm, dGet s.atoms_by_uuid u = some a →
    a.kind = .node nm → dGet s.atoms_by_name (a.atom_type, nm) = some u
  name_sound : ∀ t nm u, dGet s.atoms_by_name (t, nm) = some u →
    ∃ a, dGet s.atoms_by_uuid u = some a ∧ a.atom_type = t ∧ a.kind = .node nm

theorem nodup_append_singleton {α : Type} (l : List α) (x : α)
    (h1 : l.Nodup) (h2 : x ∉ l) : (l ++ [x]).Nodup := by
  rw [List.nodup_append]
  refine ⟨h1, List.nodup_singleton x, ?_⟩
  intro a ha hb
  simp only [List.mem_singleton] at hb
  subst hb
  exact h2 ha

theorem dGet_typeAppend (d : List (String × List String)) (t u t' : String) :
    dGet (typeAppend d t u) t' =
      if t = t' then some ((dGet d t).getD [] ++ [u]) else dGet d t' := by
  unfold typeAppend
  cases h : dGet d t <;> rw [dGet_dSet] <;> by_cases h1 : t = t' <;> simp [h, h1]

end EchoJnn

namespace EchoJnn

theorem consistent_update_payload (s : AtomSpace) (u0 : String) (ex ex' : Atom)
    (hc : Consistent s)
    (he : dGet s.atoms_by_uuid u0 = some ex)
    (huuid : ex'.uuid = ex.uuid) (htype : ex'.atom_type = ex.atom_type)
    (hkind : ex'.kind = ex.kind) :
    Consistent { s with atoms_by_uuid := dSet s.atoms_by_uuid u0 ex' } := by
  have hne : dGet s.atoms_by_uuid u0 ≠ none := by rw [he]; simp
  refine ⟨?_, ?_, ?_, ?_, ?_, ?_, ?_⟩
  · show ((dSet s.atoms_by_uuid u0 ex').map Prod.fst).Nodup
    rw [dSet_keys_of_mem _ _ _ hne]
    exact hc.uuid_nodup
  · exact hc.name_nodup
  · intro u b h
    rw [show ({ s with atoms_by_uuid := dSet s.atoms_by_uuid u0 ex' } : AtomSpace).atoms_by_uuid
        = dSet s.atoms_by_uuid u0 ex' from rfl, dGet_dSet] at h
    by_cases hu : u0 = u
    · subst hu
      rw [if_pos rfl] at h
      injection h with h
      subst h
      rw [huuid]
      exact hc.keyed u0 ex he
    · rw [if_neg hu] at h
      exact hc.keyed u b h
  · intro u b h
    rw [show ({ s with atoms_by_uuid := dSet s.atoms_by_uuid u0 ex' } : AtomSpace).atoms_by_uuid
        = dSet s.atoms_by_uuid u0 ex' from rfl, dGet_dSet] at h
    show occCount (typeList s b.atom_type) u = 1
    by_cases hu : u0 = u
    · subst hu
      rw [if_pos rfl] at h
      injection h with h
      subst h
      rw [htype]
      exact hc.type_count u0 ex he
    · rw [if_neg hu] at h
      exact hc.type_count u b h
  · intro t l hl u hu
    obtain ⟨b, hb, hbt⟩ := hc.type_sound t l hl u hu
    rw [show ({ s with atoms_by_uuid := dSet s.atoms_by_uuid u0 ex' } : AtomSpace).atoms_by_uuid
        = dSet s.atoms_by_uuid u0 ex' from rfl]
    rw [dGet_dSet]
    by_cases hu0 : u0 = u
    · subst hu0
      rw [hb] at he
      injection he with he
      subst he
      exact ⟨ex', by rw [if_pos rfl], by rw [htype]; exact hbt⟩
    · exact ⟨b, by rw [if_neg hu0]; exact hb, hbt⟩
  · intro u b nm h hbk
    rw [show ({ s with atoms_by_uuid := dSet s.atoms_by_uuid u0 ex' } : AtomSpace).atoms_by_uuid
        = dSet s.atoms_by_uuid u0 ex' from rfl, dGet_dSet] at h
    by_cases hu : u0 = u
    · subst hu
      rw [if_pos rfl] at h
      injection h with h
      subst h
      rw [hkind] at hbk
      have := hc.name_complete u0 ex nm he hbk
      rw [htype]
      exact this
    · rw [if_neg hu] at h
      exact hc.name_complete u b nm h hbk
  · intro t nm u h
    obtain ⟨b, hb, hbt, hbk⟩ := hc.name_sound t nm u h
    rw [show ({ s with atoms_by_uuid := dSet s.atoms_by_uuid u0 ex' } : AtomSpace).atoms_by_uuid
        = dSet s.atoms_by_uuid u0 ex' from rfl]
    rw [dGet_dSet]
    by_cases hu0 : u0 = u
    · subst hu0
      rw [hb] at he
      injection he with he
      subst he
      exact ⟨ex', by rw [if_pos rfl], by rw [htype]; exact hbt, by rw [hkind]; exact hbk⟩
    · exact ⟨b, by rw [if_neg hu0]; exact hb, hbt, hbk⟩

end EchoJnn

namespace EchoJnn

theorem notin_typeList_of_fresh (s : AtomSpace) (hc : Consistent s) (A T : String)
    (hfresh : dGet s.atoms_by_uuid A = none) : A ∉ typeList s T := by
  intro hmem
  unfold typeList at hmem
  cases hT : dGet s.atoms_by_type T with
  | none => rw [hT] at hmem; simp at hmem
  | some l =>
    rw [hT] at hmem
    simp only [Option.getD_some] at hmem
    obtain ⟨c, hcu, _⟩ := hc.type_sound T l hT A hmem
    rw [hfresh] at hcu
    cases hcu

theorem typeList_typeAppend (d : List (String × List String)) (t u t' : String) :
    ((dGet (typeAppend d t u) t').getD []) =
      if t = t' then (dGet d t).getD [] ++ [u] else (dGet d t').getD [] := by
  rw [dGet_typeAppend]
  by_cases h : t = t' <;> simp [h]

theorem occCount_append_singleton (l : List String) (x u : String) :
    occCount (l ++ [x]) u = occCount l u + (if x = u then 1 else 0) := by
  rw [occCount_append]
  simp [occCount]

theorem consistent_add_fresh_node (s : AtomSpace) (a : Atom) (nm : String)
    (hc : Consistent s)
    (hk : a.kind = .node nm)
    (hn : dGet s.atoms_by_name (a.atom_type, nm) = none)
    (hfresh : dGet s.atoms_by_uuid a.uuid = none) :
    Consistent { s with
      atoms_by_name := dSet s.atoms_by_name (a.atom_type, nm) a.uuid
      atoms_by_uuid := dSet s.atoms_by_uuid a.uuid a
      atoms_by_type := typeAppend s.atoms_by_type a.atom_type a.uuid } := by
  have hnotinT := notin_typeList_of_fresh s hc a.uuid a.atom_type hfresh
  refine ⟨?_, ?_, ?_, ?_, ?_, ?_, ?_⟩
  · show ((dSet s.atoms_by_uuid a.uuid a).map Prod.fst).Nodup
    rw [dSet_keys_of_not_mem _ _ _ hfresh]
    exact nodup_append_singleton _ _ hc.uuid_nodup ((dGet_eq_none_iff _ _).mp hfresh)
  · show ((dSet s.atoms_by_name (a.atom_type, nm) a.uuid).map Prod.fst).Nodup
    rw [dSet_keys_of_not_mem _ _ _ hn]
    exact nodup_append_singleton _ _ hc.name_nodup ((dGet_eq_none_iff _ _).mp hn)
  · intro u b h
    rw [show ({ s with
        atoms_by_name := dSet s.atoms_by_name (a.atom_type, nm) a.uuid
        atoms_by_uuid := dSet s.atoms_by_uuid a.uuid a
        atoms_by_type := typeAppend s.atoms_by_type a.atom_type a.uuid } : AtomSpace).atoms_by_uuid
        = dSet s.atoms_by_uuid a.uuid a from rfl, dGet_dSet] at h
    by_cases hu : a.uuid = u
    · rw [if_pos hu] at h
      injection h with h
      subst h
      exact hu
    · rw [if_neg hu] at h
      exact hc.keyed u b h
  · intro u b h
    rw [show ({ s with
        atoms_by_name := dSet s.atoms_by_name (a.atom_type, nm) a.uuid
        atoms_by_uuid := dSet s.atoms_by_uuid a.uuid a
        atoms_by_type := typeAppend s.atoms_by_type a.atom_type a.uuid } : AtomSpace).atoms_by_uuid
        = dSet s.atoms_by_uuid a.uuid a from rfl, dGet_dSet] at h
    show occCount ((dGet (typeAppend s.atoms_by_type a.atom_type a.uuid) b.atom_type).getD []) u = 1
    rw [typeList_typeAppend]
    by_cases hu : a.uuid = u
    · subst hu
      rw [if_pos rfl] at h
      injection h with h
      subst h
      rw [if_pos rfl, occCount_append_singleton, if_pos rfl]
      have h0 : occCount ((dGet s.atoms_by_type a.atom_type).getD []) a.uuid = 0 :=
        (occCount_eq_zero_iff _ _).mpr hnotinT
      omega
    · rw [if_neg hu] at h
      have hold := hc.type_count u b h
      by_cases ht : a.atom_type = b.atom_type
      · rw [if_pos ht, occCount_append_singleton, if_neg hu, ht]
        unfold typeList at hold
        omega
      · rw [if_neg ht]
        exact hold
  · intro t l hl u hu
    rw [show ({ s with
        atoms_by_name := dSet s.atoms_by_name (a.atom_type, nm) a.uuid
        atoms_by_uuid := dSet s.atoms_by_uuid a.uuid a
        atoms_by_type := typeAppend s.atoms_by_type a.atom_type a.uuid } : AtomSpace).atoms_by_type
        = typeAppend s.atoms_by_type a.atom_type a.uuid from rfl, dGet_typeAppend] at hl
    show ∃ b, dGet (dSet s.atoms_by_uuid a.uuid a) u = some b ∧ b.atom_type = t
    by_cases ht : a.atom_type = t
    · rw [if_pos ht] at hl
      injection hl with hl
      subst hl
      rcases List.mem_append.mp hu with hu1 | hu2
      · have hmem : u ∈ typeList s a.atom_type := by unfold typeList; exact hu1
        cases hT : dGet s.atoms_by_type a.atom_type with
        | none => unfold typeList at hmem; rw [hT] at hmem; simp at hmem
        | some l₀ =>
          unfold typeList at hmem
          rw [hT] at hmem
          simp only [Option.getD_some] at hmem
          obtain ⟨c, hcu, hct⟩ := hc.type_sound _ l₀ hT u hmem
          have hne : a.uuid ≠ u := by
            intro hh
            rw [← hh, hfresh] at hcu
            cases hcu
          rw [dGet_dSet, if_neg hne]
          exact ⟨c, hcu, ht ▸ hct⟩
      · simp only [List.mem_singleton] at hu2
        subst hu2
        rw [dGet_dSet, if_pos rfl]
        exact ⟨a, rfl, ht⟩
    · rw [if_neg ht] at hl
      obtain ⟨c, hcu, hct⟩ := hc.type_sound t l hl u hu
      have hne : a.uuid ≠ u := by
        intro hh
        rw [← hh, hfresh] at hcu
        cases hcu
      rw [dGet_dSet, if_neg hne]
      exact ⟨c, hcu, hct⟩
  · intro u b nm' h hbk
    rw [show ({ s with
        atoms_by_name := dSet s.atoms_by_name (a.atom_type, nm) a.uuid
        atoms_by_uuid := dSet s.atoms_by_uuid a.uuid a
        atoms_by_type := typeAppend s.atoms_by_type a.atom_type a.uuid } : AtomSpace).atoms_by_uuid
        = dSet s.atoms_by_uuid a.uuid a from rfl, dGet_dSet] at h
    show dGet (dSet s.atoms_by_name (a.atom_type, nm) a.uuid) (b.atom_type, nm') = some u
    by_cases hu : a.uuid = u
    · rw [if_pos hu] at h
      injection h with h
      subst h
      rw [hk] at hbk
      injection hbk with hbk
      subst hbk
      rw [dGet_dSet, if_pos rfl]
      rw [hu]
    · rw [if_neg hu] at h
      have hold := hc.name_complete u b nm' h hbk
      have hkey : (a.atom_type, nm) ≠ (b.atom_type, nm') := by
        intro hh
        rw [← hh] at hold
        rw [hn] at hold
        cases hold
      rw [dGet_dSet, if_neg hkey]
      exact hold
  · intro t nm' u h
    rw [show ({ s with
        atoms_by_name := dSet s.atoms_by_name (a.atom_type, nm) a.uuid
        atoms_by_uuid := dSet s.atoms_by_uuid a.uuid a
        atoms_by_type := typeAppend s.atoms_by_type a.atom_type a.uuid } : AtomSpace).atoms_by_name
        = dSet s.atoms_by_name (a.atom_type, nm) a.uuid from rfl, dGet_dSet] at h
    show ∃ b, dGet (dSet s.atoms_by_uuid a.uuid a) u = some b ∧ b.atom_type = t ∧ b.kind = .node nm'
    by_cases hkey : (a.atom_type, nm) = (t, nm')
    · rw [if_pos hkey] at h
      injection h with h
      subst h
      obtain ⟨ht, hnm⟩ := Prod.mk.injEq .. ▸ hkey
      rw [dGet_dSet, if_pos rfl]
      exact ⟨a, rfl, by rw [← ht], by rw [hk, ← hnm]⟩
    · rw [if_neg hkey] at h
      obtain ⟨c, hcu, hct, hck⟩ := hc.name_sound t nm' u h
      have hne : a.uuid ≠ u := by
        intro hh
        rw [← hh, hfresh] at hcu
        cases hcu
      rw [dGet_dSet, if_neg hne]
      exact ⟨c, hcu, hct, hck⟩

end EchoJnn

namespace EchoJnn

theorem consistent_add_fresh_link (s : AtomSpace) (a : Atom) (out : List String)
    (hc : Consistent s)
    (hk : a.kind = .link out)
    (hfresh : dGet s.atoms_by_uuid a.uuid = none) :
    Consistent { s with
      atoms_by_uuid := dSet s.atoms_by_uuid a.uuid a
      atoms_by_type := typeAppend s.atoms_by_type a.atom_type a.uuid } := by
  have hnotinT := notin_typeList_of_fresh s hc a.uuid a.atom_type hfresh
  refine ⟨?_, ?_, ?_, ?_, ?_, ?_, ?_⟩
  · show ((dSet s.atoms_by_uuid a.uuid a).map Prod.fst).Nodup
    rw [dSet_keys_of_not_mem _ _ _ hfresh]
    exact nodup_append_singleton _ _ hc.uuid_nodup ((dGet_eq_none_iff _ _).mp hfresh)
  · exact hc.name_nodup
  · intro u b h
    rw [show ({ s with
        atoms_by_uuid := dSet s.atoms_by_uuid a.uuid a
        atoms_by_type := typeAppend s.atoms_by_type a.atom_type a.uuid } : AtomSpace).atoms_by_uuid
        = dSet s.atoms_by_uuid a.uuid a from rfl, dGet_dSet] at h
    by_cases hu : a.uuid = u
    · rw [if_pos hu] at h
      injection h with h
      subst h
      exact hu
    · rw [if_neg hu] at h
      exact hc.keyed u b h
  · intro u b h
    rw [show ({ s with
        atoms_by_uuid := dSet s.atoms_by_uuid a.uuid a
        atoms_by_type := typeAppend s.atoms_by_type a.atom_type a.uuid } : AtomSpace).atoms_by_uuid
        = dSet s.atoms_by_uuid a.uuid a from rfl, dGet_dSet] at h
    show occCount ((dGet (typeAppend s.atoms_by_type a.atom_type a.uuid) b.atom_type).getD []) u = 1
    rw [typeList_typeAppend]
    by_cases hu : a.uuid = u
    · subst hu
      rw [if_pos rfl] at h
      injection h with h
      subst h
      rw [if_pos rfl, occCount_append_singleton, if_pos rfl]
      have h0 : occCount ((dGet s.atoms_by_type a.atom_type).getD []) a.uuid = 0 :=
        (occCount_eq_zero_iff _ _).mpr hnotinT
      omega
    · rw [if_neg hu] at h
      have hold := hc.type_count u b h
      by_cases ht : a.atom_type = b.atom_type
      · rw [if_pos ht, occCount_append_singleton, if_neg hu, ht]
        unfold typeList at hold
        omega
      · rw [if_neg ht]
        exact hold
  · intro t l hl u hu
    rw [show ({ s with
        atoms_by_uuid := dSet s.atoms_by_uuid a.uuid a
        atoms_by_type := typeAppend s.atoms_by_type a.atom_type a.uuid } : AtomSpace).atoms_by_type
        = typeAppend s.atoms_by_type a.atom_type a.uuid from rfl, dGet_typeAppend] at hl
    show ∃ b, dGet (dSet s.atoms_by_uuid a.uuid a) u = some b ∧ b.atom_type = t
    by_cases ht : a.atom_type = t
    · rw [if_pos ht] at hl
      injection hl with hl
      subst hl
      rcases List.mem_append.mp hu with hu1 | hu2
      · have hmem : u ∈ typeList s a.atom_type := by unfold typeList; exact hu1
        cases hT : dGet s.atoms_by_type a.atom_type with
        | none => unfold typeList at hmem; rw [hT] at hmem; simp at hmem
        | some l₀ =>
          unfold typeList at hmem
          rw [hT] at hmem
          simp only [Option.getD_some] at hmem
          obtain ⟨c, hcu, hct⟩ := hc.type_sound _ l₀ hT u hmem
          have hne : a.uuid ≠ u := by
            intro hh
            rw [← hh, hfresh] at hcu
            cases hcu
          rw [dGet_dSet, if_neg hne]
          exact ⟨c, hcu, ht ▸ hct⟩
      · simp only [List.mem_singleton] at hu2
        subst hu2
        rw [dGet_dSet, if_pos rfl]
        exact ⟨a, rfl, ht⟩
    · rw [if_neg ht] at hl
      obtain ⟨c, hcu, hct⟩ := hc.type_sound t l hl u hu
      have hne : a.uuid ≠ u := by
        intro hh
        rw [← hh, hfresh] at hcu
        cases hcu
      rw [dGet_dSet, if_neg hne]
      exact ⟨c, hcu, hct⟩
  · intro u b nm' h hbk
    rw [show ({ s with
        atoms_by_uuid := dSet s.atoms_by_uuid a.uuid a
        atoms_by_type := typeAppend s.atoms_by_type a.atom_type a.uuid } : AtomSpace).atoms_by_uuid
        = dSet s.atoms_by_uuid a.uuid a from rfl, dGet_dSet] at h
    by_cases hu : a.uuid = u
    · rw [if_pos hu] at h
      injection h with h
      subst h
      rw [hk] at hbk
      cases hbk
    · rw [if_neg hu] at h
      exact hc.name_complete u b nm' h hbk
  · intro t nm' u h
    obtain ⟨c, hcu, hct, hck⟩ := hc.name_sound t nm' u h
    have hne : a.uuid ≠ u := by
      intro hh
      rw [← hh, hfresh] at hcu
      cases hcu
    show ∃ b, dGet (dSet s.atoms_by_uuid a.uuid a) u = some b ∧ b.atom_type = t ∧ b.kind = .node nm'
    rw [dGet_dSet, if_neg hne]
    exact ⟨c, hcu, hct, hck⟩

end EchoJnn

namespace EchoJnn

theorem consistent_remove (s : AtomSpace) (a : Atom) (hc : Consistent s)
    (hs : ∀ b, dGet s.atoms_by_uuid a.uuid = some b →
      b.atom_type = a.atom_type ∧ b.kind = a.kind) :
    Consistent (s.remove a).2.1 := by
  cases hb0 : dGet s.atoms_by_uuid a.uuid with
  | none =>
    unfold AtomSpace.remove
    rw [hb0]
    exact hc
  | some b0 =>
    obtain ⟨hbt, hbk⟩ := hs b0 hb0
    have hcnt := hc.type_count a.uuid b0 hb0
    rw [hbt] at hcnt
    have hTsome : ∃ l₀, dGet s.atoms_by_type a.atom_type = some l₀ := by
      unfold typeList at hcnt
      cases hT : dGet s.atoms_by_type a.atom_type with
      | none => rw [hT] at hcnt; simp [occCount] at hcnt
      | some l₀ => exact ⟨l₀, rfl⟩
    obtain ⟨l₀, hT⟩ := hTsome
    have hcnt0 : occCount l₀ a.uuid = 1 := by
      unfold typeList at hcnt
      rw [hT] at hcnt
      simpa using hcnt
    -- the by-name update depends on the removed atom's kind
    cases hak : a.kind with
    | node nm =>
      have hb0k : b0.kind = .node nm := by rw [hbk, hak]
      have hname : dGet s.atoms_by_name (a.atom_type, nm) = some a.uuid := by
        have := hc.name_complete a.uuid b0 nm hb0 hb0k
        rw [hbt] at this
        exact this
      have hstate : (s.remove a).2.1 = { s with
          atoms_by_uuid := dDel s.atoms_by_uuid a.uuid
          atoms_by_type := dSet s.atoms_by_type a.atom_type (removeFirst l₀ a.uuid)
          atoms_by_name := dDel s.atoms_by_name (a.atom_type, nm) } := by
        unfold AtomSpace.remove
        rw [hb0, hT, hak]
        simp [hname]
      rw [hstate]
      refine ⟨?_, ?_, ?_, ?_, ?_, ?_, ?_⟩
      · show ((dDel s.atoms_by_uuid a.uuid).map Prod.fst).Nodup
        exact hc.uuid_nodup.sublist ((dDel_sublist _ _).map Prod.fst)
      · show ((dDel s.atoms_by_name (a.atom_type, nm)).map Prod.fst).Nodup
        exact hc.name_nodup.sublist ((dDel_sublist _ _).map Prod.fst)
      · intro u b h
        rw [show ({ s with
            atoms_by_uuid := dDel s.atoms_by_uuid a.uuid
            atoms_by_type := dSet s.atoms_by_type a.atom_type (removeFirst l₀ a.uuid)
            atoms_by_name := dDel s.atoms_by_name (a.atom_type, nm) } : AtomSpace).atoms_by_uuid
            = dDel s.atoms_by_uuid a.uuid from rfl,
          dGet_dDel _ _ _ hc.uuid_nodup] at h
        by_cases hu : a.uuid = u
        · rw [if_pos hu] at h; cases h
        · rw [if_neg hu] at h
          exact hc.keyed u b h
      · intro u b h
        rw [show ({ s with
            atoms_by_uuid := dDel s.atoms_by_uuid a.uuid
            atoms_by_type := dSet s.atoms_by_type a.atom_type (removeFirst l₀ a.uuid)
            atoms_by_name := dDel s.atoms_by_name (a.atom_type, nm) } : AtomSpace).atoms_by_uuid
            = dDel s.atoms_by_uuid a.uuid from rfl,
          dGet_dDel _ _ _ hc.uuid_nodup] at h
        by_cases hu : a.uuid = u
        · rw [if_pos hu] at h; cases h
        · rw [if_neg hu] at h
          have hold := hc.type_count u b h
          show occCount ((dGet (dSet s.atoms_by_type a.atom_type
            (removeFirst l₀ a.uuid)) b.atom_type).getD []) u = 1
          rw [dGet_dSet]
          by_cases ht : a.atom_type = b.atom_type
          · rw [if_pos ht]
            simp only [Option.getD_some]
            rw [occCount_removeFirst_ne _ _ _ (fun hh => hu hh.symm)]
            unfold typeList at hold
            rw [← ht, hT] at hold
            simpa using hold
          · rw [if_neg ht]
            exact hold
      · intro t l hl u hu
        rw [show ({ s with
            atoms_by_uuid := dDel s.atoms_by_uuid a.uuid
            atoms_by_type := dSet s.atoms_by_type a.atom_type (removeFirst l₀ a.uuid)
            atoms_by_name := dDel s.atoms_by_name (a.atom_type, nm) } : AtomSpace).atoms_by_type
            = dSet s.atoms_by_type a.atom_type (removeFirst l₀ a.uuid) from rfl,
          dGet_dSet] at hl
        show ∃ b, dGet (dDel s.atoms_by_uuid a.uuid) u = some b ∧ b.atom_type = t
        by_cases ht : a.atom_type = t
        · rw [if_pos ht] at hl
          injection hl with hl
          subst hl
          have hul₀ : u ∈ l₀ := mem_removeFirst _ _ _ hu
          obtain ⟨c, hcu, hct⟩ := hc.type_sound t l₀ (ht ▸ hT) u hul₀
          have hne : a.uuid ≠ u := by
            intro hh
            subst hh
            have : occCount (removeFirst l₀ a.uuid) a.uuid = 0 := by
              rw [occCount_removeFirst_self, hcnt0]
            rw [occCount_eq_zero_iff] at this
            exact this hu
          rw [dGet_dDel _ _ _ hc.uuid_nodup, if_neg hne]
          exact ⟨c, hcu, hct⟩
        · rw [if_neg ht] at hl
          obtain ⟨c, hcu, hct⟩ := hc.type_sound t l hl u hu
          have hne : a.uuid ≠ u := by
            intro hh
            subst hh
            rw [hb0] at hcu
            injection hcu with hcu
            subst hcu
            exact ht (hbt.symm.trans hct)
          rw [dGet_dDel _ _ _ hc.uuid_nodup, if_neg hne]
          exact ⟨c, hcu, hct⟩
      · intro u b nm' h hbk'
        rw [show ({ s with
            atoms_by_uuid := dDel s.atoms_by_uuid a.uuid
            atoms_by_type := dSet s.atoms_by_type a.atom_type (removeFirst l₀ a.uuid)
            atoms_by_name := dDel s.atoms_by_name (a.atom_type, nm) } : AtomSpace).atoms_by_uuid
            = dDel s.atoms_by_uuid a.uuid from rfl,
          dGet_dDel _ _ _ hc.uuid_nodup] at h
        by_cases hu : a.uuid = u
        · rw [if_pos hu] at h; cases h
        · rw [if_neg hu] at h
          have hold := hc.name_complete u b nm' h hbk'
          show dGet (dDel s.atoms_by_name (a.atom_type, nm)) (b.atom_type, nm') = some u
          rw [dGet_dDel _ _ _ hc.name_nodup]
          have hkey : (a.atom_type, nm) ≠ (b.atom_type, nm') := by
            intro hh
            rw [← hh] at hold
            rw [hname] at hold
            injection hold with hold
            exact hu hold
          rw [if_neg hkey]
          exact hold
      · intro t nm' u h
        rw [show ({ s with
            atoms_by_uuid := dDel s.atoms_by_uuid a.uuid
            atoms_by_type := dSet s.atoms_by_type a.atom_type (removeFirst l₀ a.uuid)
            atoms_by_name := dDel s.atoms_by_name (a.atom_type, nm) } : AtomSpace).atoms_by_name
            = dDel s.atoms_by_name (a.atom_type, nm) from rfl,
          dGet_dDel _ _ _ hc.name_nodup] at h
        by_cases hkey : (a.atom_type, nm) = (t, nm')
        · rw [if_pos hkey] at h; cases h
        · rw [if_neg hkey] at h
          obtain ⟨c, hcu, hct, hck⟩ := hc.name_sound t nm' u h
          have hne : a.uuid ≠ u := by
            intro hh
            subst hh
            rw [hb0] at hcu
            injection hcu with hcu
            subst hcu
            apply hkey
            rw [← hct, ← hbt]
            have : (AtomKind.node nm) = (AtomKind.node nm') := hb0k ▸ hck
            injection this with hnm
            rw [hnm]
          show ∃ b, dGet (dDel s.atoms_by_uuid a.uuid) u = some b ∧
            b.atom_type = t ∧ b.kind = .node nm'
          rw [dGet_dDel _ _ _ hc.uuid_nodup, if_neg hne]
          exact ⟨c, hcu, hct, hck⟩
    | link out =>
      have hb0k : b0.kind = .link out := by rw [hbk, hak]
      have hstate : (s.remove a).2.1 = { s with
          atoms_by_uuid := dDel s.atoms_by_uuid a.uuid
          atoms_by_type := dSet s.atoms_by_type a.atom_type (removeFirst l₀ a.uuid)
          atoms_by_name := s.atoms_by_name } := by
        unfold AtomSpace.remove
        rw [hb0, hT, hak]
      rw [hstate]
      refine ⟨?_, ?_, ?_, ?_, ?_, ?_, ?_⟩
      · show ((dDel s.atoms_by_uuid a.uuid).map Prod.fst).Nodup
        exact hc.uuid_nodup.sublist ((dDel_sublist _ _).map Prod.fst)
      · exact hc.name_nodup

      · intro u b h
        rw [show ({ s with
            atoms_by_uuid := dDel s.atoms_by_uuid a.uuid
            atoms_by_type := dSet s.atoms_by_type a.atom_type (removeFirst l₀ a.uuid)
            atoms_by_name := s.atoms_by_name } : AtomSpace).atoms_by_uuid
            = dDel s.atoms_by_uuid a.uuid from rfl,
          dGet_dDel _ _ _ hc.uuid_nodup] at h
        by_cases hu : a.uuid = u
        · rw [if_pos hu] at h; cases h
        · rw [if_neg hu] at h
          exact hc.keyed u b h
      · intro u b h
        rw [show ({ s with
            atoms_by_uuid := dDel s.atoms_by_uuid a.uuid
            atoms_by_type := dSet s.atoms_by_type a.atom_type (removeFirst l₀ a.uuid)
            atoms_by_name := s.atoms_by_name } : AtomSpace).atoms_by_uuid
            = dDel s.atoms_by_uuid a.uuid from rfl,
          dGet_dDel _ _ _ hc.uuid_nodup] at h
        by_cases hu : a.uuid = u
        · rw [if_pos hu] at h; cases h
        · rw [if_neg hu] at h
          have hold := hc.type_count u b h
          show occCount ((dGet (dSet s.atoms_by_type a.atom_type
            (removeFirst l₀ a.uuid)) b.atom_type).getD []) u = 1
          rw [dGet_dSet]
          by_cases ht : a.atom_type = b.atom_type
          · rw [if_pos ht]
            simp only [Option.getD_some]
            rw [occCount_removeFirst_ne _ _ _ (fun hh => hu hh.symm)]
            unfold typeList at hold
            rw [← ht, hT] at hold
            simpa using hold
          · rw [if_neg ht]
            exact hold
      · intro t l hl u hu
        rw [show ({ s with
            atoms_by_uuid := dDel s.atoms_by_uuid a.uuid
            atoms_by_type := dSet s.atoms_by_type a.atom_type (removeFirst l₀ a.uuid)
            atoms_by_name := s.atoms_by_name } : AtomSpace).atoms_by_type
            = dSet s.atoms_by_type a.atom_type (removeFirst l₀ a.uuid) from rfl,
          dGet_dSet] at hl
        show ∃ b, dGet (dDel s.atoms_by_uuid a.uuid) u = some b ∧ b.atom_type = t
        by_cases ht : a.atom_type = t
        · rw [if_pos ht] at hl
          injection hl with hl
          subst hl
          have hul₀ : u ∈ l₀ := mem_removeFirst _ _ _ hu
          obtain ⟨c, hcu, hct⟩ := hc.type_sound t l₀ (ht ▸ hT) u hul₀
          have hne : a.uuid ≠ u := by
            intro hh
            subst hh
            have : occCount (removeFirst l₀ a.uuid) a.uuid = 0 := by
              rw [occCount_removeFirst_self, hcnt0]
            rw [occCount_eq_zero_iff] at this
            exact this hu
          rw [dGet_dDel _ _ _ hc.uuid_nodup, if_neg hne]
          exact ⟨c, hcu, hct⟩
        · rw [if_neg ht] at hl
          obtain ⟨c, hcu, hct⟩ := hc.type_sound t l hl u hu
          have hne : a.uuid ≠ u := by
            intro hh
            subst hh
            rw [hb0] at hcu
            injection hcu with hcu
            subst hcu
            exact ht (hbt.symm.trans hct)
          rw [dGet_dDel _ _ _ hc.uuid_nodup, if_neg hne]
          exact ⟨c, hcu, hct⟩
      · intro u b nm' h hbk'
        rw [show ({ s with
            atoms_by_uuid := dDel s.atoms_by_uuid a.uuid
            atoms_by_type := dSet s.atoms_by_type a.atom_type (removeFirst l₀ a.uuid)
            atoms_by_name := s.atoms_by_name } : AtomSpace).atoms_by_uuid
            = dDel s.atoms_by_uuid a.uuid from rfl,
          dGet_dDel _ _ _ hc.uuid_nodup] at h
        by_cases hu : a.uuid = u
        · rw [if_pos hu] at h; cases h
        · rw [if_neg hu] at h
          exact hc.name_complete u b nm' h hbk'
      · intro t nm' u h
        obtain ⟨c, hcu, hct, hck⟩ := hc.name_sound t nm' u h
        have hne : a.uuid ≠ u := by
          intro hh
          subst hh
          rw [hb0] at hcu
          injection hcu with hcu
          subst hcu
          rw [hb0k] at hck
          cases hck
        show ∃ b, dGet (dDel s.atoms_by_uuid a.uuid) u = some b ∧
          b.atom_type = t ∧ b.kind = .node nm'
        rw [dGet_dDel _ _ _ hc.uuid_nodup, if_neg hne]
        exact ⟨c, hcu, hct, hck⟩

end EchoJnn

namespace EchoJnn

theorem consistent_empty (name : String) : Consistent (AtomSpace.mkEmpty name) := by
  refine ⟨?_, ?_, ?_, ?_, ?_, ?_, ?_⟩ <;> intros <;> simp_all [AtomSpace.mkEmpty, dGet]

theorem consistent_clear (s : AtomSpace) : Consistent s.clear.1 := by
  refine ⟨?_, ?_, ?_, ?_, ?_, ?_, ?_⟩ <;> intros <;> simp_all [AtomSpace.clear, dGet]

/-- C4 (amended): the three AtomSpace indexes stay mutually consistent under
every sequence of add, remove and clear operations in which no add re-adds an
atom object already stored (other than a `Node` whose `(type, name)` key is
present, which takes the merge path). -/
theorem atomspace_indexes_consistent :
    ∀ s : AtomSpace, SafeReachable s → Consistent s := by
  intro s h
  induction h with
  | base name => exact consistent_empty name
  | @step s op hr hsafe ih =>
    cases op with
    | clearOp => exact consistent_clear s
    | removeOp a =>
      show Consistent (s.remove a).2.1
      exact consistent_remove s a ih hsafe
    | addOp a =>
      show Consistent (s.add a).2.1
      simp only [SafeOp] at hsafe
      cases hk : a.kind with
      | node nm =>
        cases hn : dGet s.atoms_by_name (a.atom_type, nm) with
        | some u0 =>
          cases he : dGet s.atoms_by_uuid u0 with
          | some ex =>
            have hstate : (s.add a).2.1 = { s with
                atoms_by_uuid := dSet s.atoms_by_uuid u0 { ex with tv := ex.tv.merge a.tv } } := by
              unfold AtomSpace.add
              rw [hk]
              simp [hn, he]
            rw [hstate]
            exact consistent_update_payload s u0 ex _ ih he rfl rfl rfl
          | none =>
            have hstate : (s.add a).2.1 = s := by
              unfold AtomSpace.add
              rw [hk]
              simp [hn, he]
            rw [hstate]
            exact ih
        | none =>
          have hfresh : dGet s.atoms_by_uuid a.uuid = none := by
            rcases hsafe with h1 | ⟨nm', hnm', hsome⟩
            · exact h1
            · rw [hk] at hnm'
              injection hnm' with hnm'
              subst hnm'
              rw [hn] at hsome
              simp at hsome
          have hstate : (s.add a).2.1 = { s with
              atoms_by_name := dSet s.atoms_by_name (a.atom_type, nm) a.uuid
              atoms_by_uuid := dSet s.atoms_by_uuid a.uuid a
              atoms_by_type := typeAppend s.atoms_by_type a.atom_type a.uuid } := by
            unfold AtomSpace.add
            rw [hk]
            simp [hn]
          rw [hstate]
          exact consistent_add_fresh_node s a nm ih hk hn hfresh
      | link out =>
        have hfresh : dGet s.atoms_by_uuid a.uuid = none := by
          rcases hsafe with h1 | ⟨nm', hnm', _⟩
          · exact h1
          · rw [hk] at hnm'
            cases hnm'
        have hstate : (s.add a).2.1 = { s with
            atoms_by_uuid := dSet s.atoms_by_uuid a.uuid a
            atoms_by_type := typeAppend s.atoms_by_type a.atom_type a.uuid } := by
          unfold AtomSpace.add
          rw [hk]
        rw [hstate]
        exact consistent_add_fresh_link s a out ih hk hfresh

/-- C4 witness: the invariant for the concrete reachable state obtained by
adding one concept node to an empty AtomSpace. -/
theorem atomspace_indexes_consistent_witness :
    Consistent (applyOp (AtomSpace.mkEmpty "default")
      (.addOp ⟨"n1", "ConceptNode", .node "cat", TruthValue.simple 1 (9/10),
        AttentionValue.default⟩)) :=
  atomspace_indexes_consistent _
    (SafeReachable.step _ (SafeReachable.base "default") (Or.inl rfl))

/-- A link atom used to exhibit the index inconsistency of a double add. -/
def cex_link : Atom :=
  ⟨"u0", "InheritanceLink", .link ["a", "b"], TruthValue.simple 1 (9/10),
   AttentionValue.default⟩

/-- The state after `add(l); add(l)` with the same link object `l`. -/
def cex_state : AtomSpace :=
  (((AtomSpace.mkEmpty "default").add cex_link).2.1.add cex_link).2.1

/-- C4 counterexample: after adding the same `Link` object twice, the link is
a value of the by-UUID index but occurs twice (not once) in the type-index
list for its type — the claimed invariant fails for this operation
sequence. -/
theorem atomspace_indexes_counterexample :
    dGet cex_state.atoms_by_uuid "u0" = some cex_link ∧
    occCount (typeList cex_state "InheritanceLink") "u0" = 2 := by
  constructor <;> rfl

end EchoJnn

namespace EchoJnn

/-! ## JSON values and AtomSpace serialization (atomspace.py)

Parsed JSON documents are modelled by `Json`; a Python dict is a field list.
The textual rendering `jsonRender` stands in for `json.dumps`; no specified
property relies on its exact formatting. -/

inductive Json
  | null
  | str (s : String)
  | num (q : ℚ)
  | jbool (b : Bool)
  | arr (elems : List Json)
  | obj (fields : List (String × Json))

def tvTypeName : TVType → String
  | .SIMPLE => "SIMPLE"
  | .COUNT => "COUNT"
  | .INDEFINITE => "INDEFINITE"
  | .FUZZY => "FUZZY"

/-- Model of `TruthValue.to_dict`. -/
def TruthValue.to_dict (tv : TruthValue) : Json :=
  .obj [("strength", .num tv.strength), ("confidence", .num tv.confidence),
    ("count", .num (tv.tvCount : ℚ)), ("type", .str (tvTypeName tv.tvType))]

/-- Model of `AttentionValue.to_dict`. -/
def AttentionValue.to_dict (av : AttentionValue) : Json :=
  .obj [("sti", .num av.sti), ("lti", .num av.lti), ("vlti", .jbool av.vlti)]

/-- Model of `Node.to_dict` / `Link.to_dict`. -/
def Atom.to_dict (a : Atom) : Json :=
  match a.kind with
  | .node nm =>
    .obj [("type", .str "node"), ("atom_type", .str a.atom_type),
      ("name", .str nm), ("uuid", .str a.uuid),
      ("tv", a.tv.to_dict), ("av", a.av.to_dict)]
  | .link outgoing =>
    .obj [("type", .str "link"), ("atom_type", .str a.atom_type),
      ("outgoing", .arr (outgoing.map .str)), ("uuid", .str a.uuid),
      ("tv", a.tv.to_dict), ("av", a.av.to_dict)]

/-- Model of `AtomSpace.to_dict`: the name and the list of all stored atoms. This is
the parsed content of the file written by `AtomSpace.save`
(`json.dumps` then `json.load` is the identity on the document). -/
def AtomSpace.to_dict (s : AtomSpace) : List (String × Json) :=
  [("name", .str s.name),
   ("atoms", .arr ((s.atoms_by_uuid.map Prod.snd).map Atom.to_dict))]

mutual

def jsonRender : Json → String
  | .null => "null"
  | .str s => "\x22" ++ s ++ "\x22"
  | .num q => toString q.num ++ (if q.den = 1 then "" else "/" ++ toString q.den)
  | .jbool b => if b then "true" else "false"
  | .arr elems => "[" ++ jsonRenderList elems ++ "]"
  | .obj fields => "\x7b" ++ jsonRenderFields fields ++ "\x7d"

def jsonRenderList : List Json → String
  | [] => ""
  | [j] => jsonRender j
  | j :: t => jsonRender j ++ ", " ++ jsonRenderList t

def jsonRenderFields : List (String × Json) → String
  | [] => ""
  | [(k, j)] => "\x22" ++ k ++ "\x22: " ++ jsonRender j
  | (k, j) :: t => "\x22" ++ k ++ "\x22: " ++ jsonRender j ++ ", " ++ jsonRenderFields t

end

/-- Model of `AtomSpace.load`: read the parsed document, build
`AtomSpace(data.get("name", "loaded"))` and return it — the atom list is
never read back ("Reconstruction logic would go here"). A non-string `"name"`
value is rendered to a string for totality; no specified property depends on
the resulting name. -/
def AtomSpace.load (data : List (String × Json)) : AtomSpace :=
  AtomSpace.mkEmpty
    (match dGet data "name" with
     | some (.str s) => s
     | some j => jsonRender j
     | none => "loaded")

/-- C7: `AtomSpace.load` reconstructs nothing: for every parsed file document
— in particular for the output of `AtomSpace.save` on any (possibly
non-empty) AtomSpace — the loaded AtomSpace has `size() = 0`. -/
theorem atomspace_load_is_empty :
    (∀ data : List (String × Json), (AtomSpace.load data).size = 0) ∧
    (∀ s : AtomSpace, (AtomSpace.load s.to_dict).size = 0) := by
  constructor
  · intro data
    rfl
  · intro s
    rfl

/-- C8: `AtomSpace.add` of a `Node` whose `(type, name)` key is already
present returns the previously stored atom with its truth value replaced by
the merge of old and new, updates only that payload, leaves both other
indexes untouched and the size unchanged, and fires no callback event. -/
theorem add_existing_node_merges :
    ∀ (s : AtomSpace) (a : Atom) (nm u : String) (ex : Atom),
      a.kind = .node nm →
      dGet s.atoms_by_name (a.atom_type, nm) = some u →
      dGet s.atoms_by_uuid u = some ex →
      s.add a = ({ ex with tv := ex.tv.merge a.tv },
        { s with atoms_by_uuid := dSet s.atoms_by_uuid u { ex with tv := ex.tv.merge a.tv } },
        []) ∧
      (s.add a).2.1.size = s.size ∧
      (s.add a).2.1.atoms_by_type = s.atoms_by_type ∧
      (s.add a).2.1.atoms_by_name = s.atoms_by_name := by
  intro s a nm u ex hk hn he
  have hadd : s.add a = ({ ex with tv := ex.tv.merge a.tv },
      { s with atoms_by_uuid := dSet s.atoms_by_uuid u { ex with tv := ex.tv.merge a.tv } },
      []) := by
    unfold AtomSpace.add
    rw [hk]
    simp [hn, he]
  refine ⟨hadd, ?_, ?_, ?_⟩
  · rw [hadd]
    show (dSet s.atoms_by_uuid u _).length = s.atoms_by_uuid.length
    exact dSet_length _ _ _ (by rw [he]; simp)
  · rw [hadd]
  · rw [hadd]

/-- A node already stored, for the C8 witness. -/
def c8_node1 : Atom :=
  ⟨"n1", "ConceptNode", .node "cat", TruthValue.simple 1 (9/10), AttentionValue.default⟩

/-- A distinct node object with the same `(type, name)` key. -/
def c8_node2 : Atom :=
  ⟨"n2", "ConceptNode", .node "cat", TruthValue.simple (1/2) (1/2), AttentionValue.default⟩

/-- The AtomSpace holding `c8_node1`. -/
def c8_space : AtomSpace :=
  ((AtomSpace.mkEmpty "default").add c8_node1).2.1

/-- C8 witness: the merge path at a concrete AtomSpace. -/
theorem add_existing_node_merges_witness :
    (c8_space.add c8_node2).2.1.size = c8_space.size ∧
    (c8_space.add c8_node2).2.1.atoms_by_name = c8_space.atoms_by_name ∧
    (c8_space.add c8_node2).2.2 = [] :=
  ⟨(add_existing_node_merges c8_space c8_node2 "cat" "n1" c8_node1 rfl rfl rfl).2.1,
   (add_existing_node_merges c8_space c8_node2 "cat" "n1" c8_node1 rfl rfl rfl).2.2.2,
   by rw [(add_existing_node_merges c8_space c8_node2 "cat" "n1" c8_node1 rfl rfl rfl).1]⟩

end EchoJnn

namespace EchoJnn

/-! ## PLN system calls (cogkernel.py)

`PLNSyscall` holds a reference to the AtomSpace; its syscalls are modelled as
state transformers returning the optional conclusion UUID and the new state.
The fresh UUID drawn by `uuid.uuid4()` for a new conclusion link is passed
explicitly. -/

/-- Model of `isinstance(p, Link) and p.atom_type == "InheritanceLink"`. -/
def isInheritanceLink (p : Atom) : Bool :=
  (match p.kind with
   | .link _ => true
   | .node _ => false) && p.atom_type == "InheritanceLink"

/-- Conclusion step of `PLNSyscall._deduction` once `link1, link2` chain:
`A := link1.outgoing[0]`, `C := link2.outgoing[1]`,
`sAC = sAB * sBC`, `cAC = cAB * cBC * sBC`; the conclusion is built with
`InheritanceLink(A, C, tv=TruthValue.simple(sAC, cAC))` and added. -/
def pln_conclude (fresh : String) (s : AtomSpace) (link1 link2 : Atom)
    (A C : String) : Option String × AtomSpace :=
  let sAC := link1.tv.strength * link2.tv.strength
  let cAC := link1.tv.confidence * link2.tv.confidence * link2.tv.strength
  let conclusion := mkInheritanceLink fresh A C (TruthValue.simple sAC cAC)
  (some fresh, (s.add conclusion).2.1)

/-- Model of `PLNSyscall._deduction`: requires exactly two premises, both
`InheritanceLink`s, chaining directly or after swapping. An
`InheritanceLink`-typed link whose outgoing list is not binary would raise
`IndexError` in the source (no exported constructor builds one); it is mapped
to `none` here. -/
def pln_deduction (fresh : String) (s : AtomSpace) (premises : List Atom) :
    Option String × AtomSpace :=
  match premises with
  | [p1, p2] =>
    if isInheritanceLink p1 && isInheritanceLink p2 then
      match p1.kind, p2.kind with
      | .link [a1, b1], .link [a2, b2] =>
        if b1 = a2 then pln_conclude fresh s p1 p2 a1 b2
        else if b2 = a1 then pln_conclude fresh s p2 p1 a2 b1
        else (none, s)
      | _, _ => (none, s)
    else (none, s)
  | _ => (none, s)

/-- Model of `PLNSyscall._induction`: unimplemented stub, returns `None`. -/
def pln_induction (s : AtomSpace) (_premises : List Atom) :
    Option String × AtomSpace :=
  (none, s)

/-- Model of `PLNSyscall._abduction`: unimplemented stub, returns `None`. -/
def pln_abduction (s : AtomSpace) (_premises : List Atom) :
    Option String × AtomSpace :=
  (none, s)

/-- Model of `PLNSyscall._modus_ponens`: the loop keeps the last premise qualifying as
implication and as antecedent respectively; on a match the consequent's STI is
stimulated by 10 (visible in the AtomSpace when the consequent is stored). -/
def pln_modus_ponens (s : AtomSpace) (premises : List Atom) :
    Option String × AtomSpace :=
  match premises with
  | [p1, p2] =>
    let impl := if isInheritanceLink p2 then some p2
      else if isInheritanceLink p1 then some p1 else none
    let ante := if p2.isNode then some p2
      else if p1.isNode then some p1 else none
    match impl, ante with
    | some impl, some ante =>
      match impl.kind with
      | .link [x, y] =>
        if x = ante.uuid then
          let s' :=
            match dGet s.atoms_by_uuid y with
            | some c =>
              let c' := { c with av := { c.av with sti := c.av.sti + 10 } }
              { s with atoms_by_uuid := dSet s.atoms_by_uuid y c' }
            | none => s
          (some y, s')
        else (none, s)
      | _ => (none, s)
    | _, _ => (none, s)
  | _ => (none, s)

/-- Model of `PLNSyscall.sys_infer`: resolve the premise UUIDs, bail out with `None`
when any fails to resolve, and dispatch on the rule name. -/
def sys_infer (fresh : String) (s : AtomSpace) (rule : String)
    (premises : List String) : Option String × AtomSpace :=
  let premise_atoms := premises.map (dGet s.atoms_by_uuid)
  if premise_atoms.any (fun o => o.isNone) then (none, s)
  else
    let atoms := premise_atoms.reduceOption
    if rule = "deduction" then pln_deduction fresh s atoms
    else if rule = "induction" then pln_induction s atoms
    else if rule = "abduction" then pln_abduction s atoms
    else if rule = "modus_ponens" then pln_modus_ponens s atoms
    else (none, s)

end EchoJnn

namespace EchoJnn

/-! ## CogFS virtual filesystem (cogkernel.py)

Byte strings are modelled as `String`s for output (`read`) and, for `write`
payloads, abstracted by their `json.loads` outcome together with their length
(`AtomNode.write` reads nothing else from the raw bytes). The query node's
cached result list is not tracked: no specified property reads it, and writes
through it never touch the AtomSpace (`get_atoms_by_type` copies). -/

/-- A resolved CogFS node: an `AtomNode` wrapping an atom of the AtomSpace, or
the `/atomspace/query` `QueryNode`. -/
inductive CogFSNode
  | atomNode (a : Atom)
  | queryNode

/-- A `write` payload: bytes that fail `json.loads`, or bytes parsing to a
JSON document, each carrying `len(data)`. -/
inductive WriteData
  | invalid (len : Nat)
  | jsonData (j : Json) (len : Nat)

/-- Model of `path.strip('/')`. -/
def stripSlashes (p : String) : String :=
  String.mk (((p.toList.dropWhile (· = '/')).reverse.dropWhile (· = '/')).reverse)

/-- Python `str.split(sep)` on the character list: splits at every separator
and keeps empty segments (`"".split('/') == ['']`). -/
def splitOnChar (c : Char) : List Char → List (List Char)
  | [] => [[]]
  | x :: t =>
    let r := splitOnChar c t
    if x = c then [] :: r
    else
      match r with
      | h :: t' => (x :: h) :: t'
      | [] => [[x]]

/-- Python `str.split(sep)`. -/
def pySplit (sep : Char) (s : String) : List String :=
  (splitOnChar sep s.toList).map (fun cs => String.mk cs)

/-- The path-parsing core of `CogFS.resolve_path`, applied to the split
segments: `/atomspace/nodes/<type>/<name>` resolves through `get_node`,
`/atomspace/links/<uuid>` through `get`. -/
def resolve_parts (s : AtomSpace) (parts : List String) : Option CogFSNode :=
  if parts.length < 2 then none
  else if parts.getD 0 "" = "atomspace" then
    if parts.getD 1 "" = "nodes" then
      if 4 ≤ parts.length then
        match s.get_node (parts.getD 2 "") (parts.getD 3 "") with
        | some a => some (.atomNode a)
        | none => none
      else none
    else if parts.getD 1 "" = "links" then
      if 3 ≤ parts.length then
        match s.get (parts.getD 2 "") with
        | some a => some (.atomNode a)
        | none => none
      else none
    else none
  else none

/-- Model of `CogFS.resolve_path`: virtual nodes first (only `/atomspace/query` is
registered), then the parsed path segments. -/
def resolve_path (s : AtomSpace) (path : String) : Option CogFSNode :=
  if path = "/atomspace/query" then some .queryNode
  else resolve_parts s (pySplit '/' (stripSlashes path))

/-- Python `k in j` for a parsed JSON value: key membership for a dict,
element equality for a list, substring test for a string, `TypeError`
(`none`) otherwise. -/
def jsonMember : Json → String → Option Bool
  | .obj fields, k => some (fields.any (fun f => f.1 = k))
  | .arr elems, k =>
    some (elems.any (fun e =>
      match e with
      | .str s => s = k
      | _ => false))
  | .str s, k => some ((s.splitOn k).length > 1)
  | _, _ => none

/-- Python `j[k]` for a parsed JSON value: dict lookup; anything else raises
(`none`). -/
def jsonIndex : Json → String → Option Json
  | .obj fields, k => dGet fields k
  | _, _ => none

/-- Model of `TruthValueType[name]`: `KeyError` (`none`) for an unknown name. -/
def tvTypeOfName : String → Option TVType
  | "SIMPLE" => some .SIMPLE
  | "COUNT" => some .COUNT
  | "INDEFINITE" => some .INDEFINITE
  | "FUZZY" => some .FUZZY
  | _ => none

/-- Model of `data.get(key, default)` for a numeric field. A non-numeric JSON value
would be stored as-is by the dynamically typed source; no specified property
reads such a field, and the numeric model keeps the default for it. -/
def jnumD (fields : List (String × Json)) (k : String) (d : ℚ) : ℚ :=
  match dGet fields k with
  | some (.num q) => q
  | _ => d

/-- Model of `data.get(key, default)` for an integer field. -/
def jintD (fields : List (String × Json)) (k : String) (d : ℤ) : ℤ :=
  match dGet fields k with
  | some (.num q) => if q.den = 1 then q.num else d
  | _ => d

/-- Model of `data.get(key, default)` for a string field. -/
def jstrD (fields : List (String × Json)) (k : String) (d : String) : String :=
  match dGet fields k with
  | some (.str v) => v
  | _ => d

/-- Model of `data.get(key, default)` for a boolean field. -/
def jboolD (fields : List (String × Json)) (k : String) (d : Bool) : Bool :=
  match dGet fields k with
  | some (.jbool b) => b
  | _ => d

/-- Model of `TruthValue.from_dict`: `.get` calls on a non-dict raise
(`AttributeError`, `none`); an unknown `"type"` name raises `KeyError`. -/
def TruthValue.from_dict (j : Json) : Option TruthValue :=
  match j with
  | .obj fields =>
    (tvTypeOfName (jstrD fields "type" "SIMPLE")).map (fun ty =>
      ⟨jnumD fields "strength" 1, jnumD fields "confidence" (9/10),
       jintD fields "count" 1, ty⟩)
  | _ => none

/-- Model of `AttentionValue.from_dict`. -/
def AttentionValue.from_dict (j : Json) : Option AttentionValue :=
  match j with
  | .obj fields =>
    some ⟨jnumD fields "sti" 0, jnumD fields "lti" 0, jboolD fields "vlti" false⟩
  | _ => none

/-- Model of `AtomNode.read`: `json.dumps(atom.to_dict())`. -/
def AtomNode_read (a : Atom) : String :=
  jsonRender a.to_dict

/-- Model of `AtomNode.write`: update tv and/or av from the parsed payload inside the
`try`; any raise yields `-1`, but a failure after the tv assignment leaves
the atom with the already-updated truth value (the `except` does not roll
back). Returns the result code and the atom's final state. -/
def AtomNode_write (a : Atom) (d : WriteData) : ℤ × Atom :=
  match d with
  | .invalid _ => (-1, a)
  | .jsonData j len =>
    match jsonMember j "tv" with
    | none => (-1, a)
    | some hasTv =>
      let step1 : Option Atom :=
        if hasTv then
          match jsonIndex j "tv" with
          | some tvj => (TruthValue.from_dict tvj).map (fun tv => { a with tv := tv })
          | none => none
        else some a
      match step1 with
      | none => (-1, a)
      | some a1 =>
        match jsonMember j "av" with
        | none => (-1, a1)
        | some hasAv =>
          if hasAv then
            match jsonIndex j "av" with
            | some avj =>
              match AttentionValue.from_dict avj with
              | some av => ((len : ℤ), { a1 with av := av })
              | none => (-1, a1)
            | none => (-1, a1)
          else ((len : ℤ), a1)

/-- Model of `QueryNode.write`: parse, probe `'type' in query`, return `len(data)` or
`-1`; only the untracked result cache changes. -/
def QueryNode_write (d : WriteData) : ℤ :=
  match d with
  | .invalid _ => -1
  | .jsonData j len =>
    match jsonMember j "type" with
    | none => -1
    | some _ => (len : ℤ)

/-- Model of `CogFS.read`: resolved node's `read`, else `b''`. -/
def cogfs_read (s : AtomSpace) (path : String) : String :=
  match resolve_path s path with
  | some (.atomNode a) => AtomNode_read a
  | some .queryNode => "[]"
  | none => ""

/-- Model of `CogFS.write`: resolved node's `write`, else `-1`. The atom object's
mutation is visible through the by-UUID payload store. -/
def cogfs_write (s : AtomSpace) (path : String) (d : WriteData) :
    ℤ × AtomSpace :=
  match resolve_path s path with
  | none => (-1, s)
  | some .queryNode => (QueryNode_write d, s)
  | some (.atomNode a) =>
    let r := AtomNode_write a d
    (r.1, { s with atoms_by_uuid := dSet s.atoms_by_uuid a.uuid r.2 })

end EchoJnn

namespace EchoJnn

theorem reduceOption_map_some {α : Type} (l : List α) :
    (l.map some).reduceOption = l := by
  induction l with
  | nil => rfl
  | cons x t ih => simp [List.reduceOption, List.filterMap]

theorem sys_infer_eq_dispatch (fresh : String) (s : AtomSpace) (rule : String)
    (premises : List String) (atoms : List Atom)
    (h : premises.map (dGet s.atoms_by_uuid) = atoms.map some) :
    sys_infer fresh s rule premises =
      (if rule = "deduction" then pln_deduction fresh s atoms
       else if rule = "induction" then pln_induction s atoms
       else if rule = "abduction" then pln_abduction s atoms
       else if rule = "modus_ponens" then pln_modus_ponens s atoms
       else (none, s)) := by
  unfold sys_infer
  rw [h]
  have hany : ((atoms.map some).any (fun o => o.isNone)) = false := by
    rw [List.any_eq_false]
    intro o ho
    rw [List.mem_map] at ho
    obtain ⟨x, _, rfl⟩ := ho
    simp
  simp only [hany, Bool.false_eq_true, if_false, reduceOption_map_some]

/-- C5: `sys_infer` with rule `"induction"` or `"abduction"` on resolving
premises returns `None` and leaves the AtomSpace unchanged (the two rules are
unimplemented stubs). -/
theorem induction_abduction_noop :
    ∀ (fresh : String) (s : AtomSpace) (rule : String) (premises : List String),
      (rule = "induction" ∨ rule = "abduction") →
      (∀ u ∈ premises, (dGet s.atoms_by_uuid u).isSome = true) →
      sys_infer fresh s rule premises = (none, s) := by
  intro fresh s rule premises hrule hres
  have hatoms : ∃ atoms : List Atom,
      premises.map (dGet s.atoms_by_uuid) = atoms.map some := by
    induction premises with
    | nil => exact ⟨[], rfl⟩
    | cons u t ih =>
      obtain ⟨p, hp⟩ := Option.isSome_iff_exists.mp (hres u (by simp))
      obtain ⟨atoms, hatoms⟩ := ih (fun v hv => hres v (by simp [hv]))
      exact ⟨p :: atoms, by simp [hp, hatoms]⟩
  obtain ⟨atoms, hmap⟩ := hatoms
  rw [sys_infer_eq_dispatch fresh s rule premises atoms hmap]
  rcases hrule with rfl | rfl <;> simp [pln_induction, pln_abduction]

/-- C5 witness: rule `"induction"` on an empty premise list over a concrete
AtomSpace. -/
theorem induction_abduction_noop_witness :
    sys_infer "w" (AtomSpace.mkEmpty "default") "induction" [] =
      (none, AtomSpace.mkEmpty "default") :=
  induction_abduction_noop "w" (AtomSpace.mkEmpty "default") "induction" []
    (Or.inl rfl) (by simp)

end EchoJnn

namespace EchoJnn

theorem exists_resolved_atoms (s : AtomSpace) (premises : List String)
    (hres : ∀ u ∈ premises, (dGet s.atoms_by_uuid u).isSome = true) :
    ∃ atoms : List Atom,
      premises.map (dGet s.atoms_by_uuid) = atoms.map some := by
  induction premises with
  | nil => exact ⟨[], rfl⟩
  | cons u t ih =>
    obtain ⟨p, hp⟩ := Option.isSome_iff_exists.mp (hres u (by simp))
    obtain ⟨atoms, hatoms⟩ := ih (fun v hv => hres v (by simp [hv]))
    exact ⟨p :: atoms, by simp [hp, hatoms]⟩

/-- Two premises suitable for `_deduction`: both resolve to binary
`InheritanceLink`s that chain directly or after swapping. -/
def DeductionApplicable (s : AtomSpace) (premises : List String) : Prop :=
  ∃ u1 u2 p1 p2 a1 b1 a2 b2,
    premises = [u1, u2] ∧
    dGet s.atoms_by_uuid u1 = some p1 ∧
    dGet s.atoms_by_uuid u2 = some p2 ∧
    p1.atom_type = "InheritanceLink" ∧ p2.atom_type = "InheritanceLink" ∧
    p1.kind = .link [a1, b1] ∧ p2.kind = .link [a2, b2] ∧
    (b1 = a2 ∨ b2 = a1)

/-- C2: `sys_infer("deduction", ...)` on two chaining `InheritanceLink`s
`A→B`, `B→C` (in either order) adds a new `InheritanceLink A→C` with
`sAC = sAB*sBC` and `cAC = cAB*cBC*sBC` and returns its UUID; on resolving
premises that are not two chaining binary `InheritanceLink`s it returns
`None` and leaves the AtomSpace unchanged. (In the swapped order with
`C = A` both decompositions chain; the code then resolves the ambiguity by
treating the premises in the given order, so that case is stated for
`C ≠ A`.) -/
theorem pln_deduction_spec :
    (∀ (fresh : String) (s : AtomSpace) (u1 u2 a b c : String) (p1 p2 : Atom),
      dGet s.atoms_by_uuid u1 = some p1 →
      dGet s.atoms_by_uuid u2 = some p2 →
      p1.atom_type = "InheritanceLink" → p2.atom_type = "InheritanceLink" →
      p1.kind = .link [a, b] → p2.kind = .link [b, c] →
      sys_infer fresh s "deduction" [u1, u2] =
        (some fresh, (s.add (mkInheritanceLink fresh a c
          (TruthValue.simple (p1.tv.strength * p2.tv.strength)
            (p1.tv.confidence * p2.tv.confidence * p2.tv.strength)))).2.1) ∧
      (c ≠ a →
        sys_infer fresh s "deduction" [u2, u1] =
          (some fresh, (s.add (mkInheritanceLink fresh a c
            (TruthValue.simple (p1.tv.strength * p2.tv.strength)
              (p1.tv.confidence * p2.tv.confidence * p2.tv.strength)))).2.1))) ∧
    (∀ (fresh : String) (s : AtomSpace) (premises : List String),
      (∀ u ∈ premises, (dGet s.atoms_by_uuid u).isSome = true) →
      (∀ u p o, u ∈ premises → dGet s.atoms_by_uuid u = some p →
        p.atom_type = "InheritanceLink" → p.kind = .link o → o.length = 2) →
      ¬ DeductionApplicable s premises →
      sys_infer fresh s "deduction" premises = (none, s)) := by
  constructor
  · intro fresh s u1 u2 a b c p1 p2 hu1 hu2 ht1 ht2 hk1 hk2
    have hi1 : isInheritanceLink p1 = true := by
      simp [isInheritanceLink, hk1, ht1]
    have hi2 : isInheritanceLink p2 = true := by
      simp [isInheritanceLink, hk2, ht2]
    constructor
    · have hmap : [u1, u2].map (dGet s.atoms_by_uuid) = [p1, p2].map some := by
        simp [hu1, hu2]
      rw [sys_infer_eq_dispatch fresh s "deduction" [u1, u2] [p1, p2] hmap,
        if_pos rfl]
      simp only [pln_deduction, hi1, hi2, Bool.and_self, if_pos rfl]
      rw [hk1, hk2]
      simp [pln_conclude]
    · intro hca
      have hmap : [u2, u1].map (dGet s.atoms_by_uuid) = [p2, p1].map some := by
        simp [hu1, hu2]
      rw [sys_infer_eq_dispatch fresh s "deduction" [u2, u1] [p2, p1] hmap,
        if_pos rfl]
      simp only [pln_deduction, hi1, hi2, Bool.and_self, if_pos rfl]
      rw [hk1, hk2]
      simp [pln_conclude, hca]
  · intro fresh s premises hres hwf hnap
    cases premises with
    | nil =>
      rw [sys_infer_eq_dispatch fresh s "deduction" [] [] rfl, if_pos rfl]
      rfl
    | cons u1 rest =>
      obtain ⟨p1, hp1⟩ := Option.isSome_iff_exists.mp (hres u1 (by simp))
      cases rest with
      | nil =>
        rw [sys_infer_eq_dispatch fresh s "deduction" [u1] [p1] (by simp [hp1]),
          if_pos rfl]
        rfl
      | cons u2 rest2 =>
        obtain ⟨p2, hp2⟩ := Option.isSome_iff_exists.mp (hres u2 (by simp))
        cases rest2 with
        | cons u3 rest3 =>
          obtain ⟨p3, hp3⟩ := Option.isSome_iff_exists.mp (hres u3 (by simp))
          obtain ⟨atomsR, hmapR⟩ := exists_resolved_atoms s rest3
            (fun v hv => hres v (by simp [hv]))
          rw [sys_infer_eq_dispatch fresh s "deduction" (u1 :: u2 :: u3 :: rest3)
            (p1 :: p2 :: p3 :: atomsR) (by simp [hp1, hp2, hp3, hmapR]), if_pos rfl]
          rfl
        | nil =>
          rw [sys_infer_eq_dispatch fresh s "deduction" [u1, u2] [p1, p2]
            (by simp [hp1, hp2]), if_pos rfl]
          by_cases hi1 : isInheritanceLink p1 = true
          · by_cases hi2 : isInheritanceLink p2 = true
            · have ht1 : p1.atom_type = "InheritanceLink" := by
                unfold isInheritanceLink at hi1
                exact eq_of_beq (Bool.and_elim_right hi1)
              have ht2 : p2.atom_type = "InheritanceLink" := by
                unfold isInheritanceLink at hi2
                exact eq_of_beq (Bool.and_elim_right hi2)
              cases hk1 : p1.kind with
              | node nm1 =>
                unfold isInheritanceLink at hi1
                rw [hk1] at hi1
                simp at hi1
              | link o1 =>
                cases hk2 : p2.kind with
                | node nm2 =>
                  unfold isInheritanceLink at hi2
                  rw [hk2] at hi2
                  simp at hi2
                | link o2 =>
                  obtain ⟨a1, b1, ho1⟩ := List.length_eq_two.mp
                    (hwf u1 p1 o1 (by simp) hp1 ht1 hk1)
                  obtain ⟨a2, b2, ho2⟩ := List.length_eq_two.mp
                    (hwf u2 p2 o2 (by simp) hp2 ht2 hk2)
                  subst ho1
                  subst ho2
                  by_cases hc1 : b1 = a2
                  · exact absurd ⟨u1, u2, p1, p2, a1, b1, a2, b2, rfl, hp1, hp2,
                      ht1, ht2, hk1, hk2, Or.inl hc1⟩ hnap
                  · by_cases hc2 : b2 = a1
                    · exact absurd ⟨u1, u2, p1, p2, a1, b1, a2, b2, rfl, hp1, hp2,
                        ht1, ht2, hk1, hk2, Or.inr hc2⟩ hnap
                    · simp only [pln_deduction, hi1, hi2, Bool.and_self, if_pos rfl]
                      rw [hk1, hk2]
                      simp [hc1, hc2]
            · simp only [pln_deduction]
              simp [hi2]
          · simp only [pln_deduction]
            simp [hi1]

end EchoJnn

namespace EchoJnn

/-- First premise for the C2 witness: `A→B`. -/
def c2_l1 : Atom :=
  ⟨"l1", "InheritanceLink", .link ["A", "B"], TruthValue.simple (1/2) (1/2),
   AttentionValue.default⟩

/-- Second premise for the C2 witness: `B→C`. -/
def c2_l2 : Atom :=
  ⟨"l2", "InheritanceLink", .link ["B", "C"], TruthValue.simple (1/3) (1/4),
   AttentionValue.default⟩

/-- The AtomSpace holding the two premises. -/
def c2_space : AtomSpace :=
  (((AtomSpace.mkEmpty "default").add c2_l1).2.1.add c2_l2).2.1

/-- C2 witness: deduction over the two concrete chaining links. -/
theorem pln_deduction_spec_witness :
    sys_infer "f" c2_space "deduction" ["l1", "l2"] =
      (some "f", (c2_space.add (mkInheritanceLink "f" "A" "C"
        (TruthValue.simple (c2_l1.tv.strength * c2_l2.tv.strength)
          (c2_l1.tv.confidence * c2_l2.tv.confidence * c2_l2.tv.strength)))).2.1) :=
  (pln_deduction_spec.1 "f" c2_space "l1" "l2" "A" "B" "C" c2_l1 c2_l2
    rfl rfl rfl rfl rfl rfl).1

end EchoJnn

namespace EchoJnn

theorem resolve_parts_atomNode (s : AtomSpace) (parts : List String) (a : Atom)
    (h : resolve_parts s parts = some (.atomNode a)) :
    ∃ u, dGet s.atoms_by_uuid u = some a := by
  unfold resolve_parts at h
  by_cases h2 : parts.length < 2
  · rw [if_pos h2] at h
    exact Option.noConfusion h
  · rw [if_neg h2] at h
    by_cases h3 : parts.getD 0 "" = "atomspace"
    · rw [if_pos h3] at h
      by_cases h4 : parts.getD 1 "" = "nodes"
      · rw [if_pos h4] at h
        by_cases h5 : 4 ≤ parts.length
        · rw [if_pos h5] at h
          cases hg : AtomSpace.get_node s (parts.getD 2 "") (parts.getD 3 "") with
          | none => rw [hg] at h; exact Option.noConfusion h
          | some b =>
            rw [hg] at h
            injection h with h
            injection h with h
            subst h
            unfold AtomSpace.get_node at hg
            cases hn : dGet s.atoms_by_name (parts.getD 2 "", parts.getD 3 "") with
            | none => rw [hn] at hg; exact Option.noConfusion hg
            | some u => rw [hn] at hg; exact ⟨u, hg⟩
        · rw [if_neg h5] at h; exact Option.noConfusion h
      · rw [if_neg h4] at h
        by_cases h6 : parts.getD 1 "" = "links"
        · rw [if_pos h6] at h
          by_cases h7 : 3 ≤ parts.length
          · rw [if_pos h7] at h
            cases hg : AtomSpace.get s (parts.getD 2 "") with
            | none => rw [hg] at h; exact Option.noConfusion h
            | some b =>
              rw [hg] at h
              injection h with h
              injection h with h
              subst h
              unfold AtomSpace.get at hg
              exact ⟨parts.getD 2 "", hg⟩
          · rw [if_neg h7] at h; exact Option.noConfusion h
        · rw [if_neg h6] at h; exact Option.noConfusion h
    · rw [if_neg h3] at h; exact Option.noConfusion h

theorem resolve_path_atomNode (s : AtomSpace) (path : String) (a : Atom)
    (h : resolve_path s path = some (.atomNode a)) :
    ∃ u, dGet s.atoms_by_uuid u = some a := by
  unfold resolve_path at h
  by_cases h1 : path = "/atomspace/query"
  · rw [if_pos h1] at h
    injection h with h
    exact CogFSNode.noConfusion h
  · rw [if_neg h1] at h
    exact resolve_parts_atomNode s _ a h

/-- C6: when `resolve_path` fails, `read` returns the empty byte string and
`write` returns `-1` with the AtomSpace unchanged; a resolved `AtomNode`
written data that is not valid JSON also returns `-1` and changes nothing
(`json.loads` raises before any field is assigned). The by-UUID payloads are
assumed keyed by the stored atom's own UUID, as `add` always arranges. -/
theorem cogfs_failure_behavior :
    (∀ (s : AtomSpace) (path : String) (d : WriteData),
      resolve_path s path = none →
      cogfs_read s path = "" ∧ cogfs_write s path d = (-1, s)) ∧
    (∀ (s : AtomSpace) (path : String) (a : Atom) (len : Nat),
      (∀ u b, dGet s.atoms_by_uuid u = some b → b.uuid = u) →
      resolve_path s path = some (.atomNode a) →
      cogfs_write s path (.invalid len) = (-1, s)) := by
  constructor
  · intro s path d h
    constructor
    · unfold cogfs_read
      rw [h]
    · unfold cogfs_write
      rw [h]
  · intro s path a len hkeyed h
    obtain ⟨u, hu⟩ := resolve_path_atomNode s path a h
    have huuid : a.uuid = u := hkeyed u a hu
    subst huuid
    unfold cogfs_write
    rw [h]
    show ((-1 : ℤ), { s with atoms_by_uuid := dSet s.atoms_by_uuid a.uuid a }) = (-1, s)
    rw [dSet_self _ _ _ hu]

end EchoJnn

namespace EchoJnn

/-- C6 witness: an unresolvable path on an empty AtomSpace, and an invalid
JSON write to the resolved link node `/atomspace/links/l1` of `c2_space`. -/
theorem cogfs_failure_behavior_witness :
    (cogfs_read (AtomSpace.mkEmpty "d") "/nope" = "" ∧
      cogfs_write (AtomSpace.mkEmpty "d") "/nope" (.invalid 3) =
        (-1, AtomSpace.mkEmpty "d")) ∧
    cogfs_write c2_space "/atomspace/links/l1" (.invalid 7) = (-1, c2_space) :=
  ⟨cogfs_failure_behavior.1 (AtomSpace.mkEmpty "d") "/nope" (.invalid 3) rfl,
   cogfs_failure_behavior.2 c2_space "/atomspace/links/l1" c2_l1 7
     (by
       intro u b h
       unfold c2_space AtomSpace.add AtomSpace.mkEmpty at h
       simp only [c2_l1, c2_l2, dSet, typeAppend, dGet] at h
       by_cases h1 : ("l1" : String) = u
       · rw [if_pos h1] at h
         injection h with h
         subst h
         exact h1
       · rw [if_neg h1] at h
         by_cases h2 : ("l2" : String) = u
         · rw [if_pos h2] at h
           injection h with h
           subst h
           exact h2
         · rw [if_neg h2] at h
           exact Option.noConfusion h)
     rfl⟩

end EchoJnn
